import Mathlib

/-!
Verification of the avalanchego snowman bootstrap storage subsystem
(`snow/engine/snowman/bootstrap/storage.go` and `acceptor.go`) against its
natural-language specification.

Blocks, block IDs, heights and the pending block store are embedded
shallowly: `ids.ID` becomes `Nat`, a parsed block becomes the `Blk`
structure, the height-keyed pending block store becomes a lookup function
(for `getMissingBlockIDs`) or an ascending list of blocks (for the
`execute` iterator).  Fallible Go calls are modelled with `Option`.
-/

namespace Bootstrap

/-- Model of `ids.ID`. -/
abbrev BlkID := Nat

/-- A parsed block: the result of `parser.ParseBlock` on stored bytes.
`id`, `parentID` and `height` model the `snowman.Block` accessors `ID()`,
`Parent()` and `Height()`. -/
structure Blk where
  id : BlkID
  parentID : BlkID
  height : Nat
deriving DecidableEq, Repr

/-- Modelled from the spec: an `interval.Interval` — an inclusive height
range `[lowerBound, upperBound]` (the `interval` package itself is not part
of the provided sources). -/
structure Ival where
  lowerBound : Nat
  upperBound : Nat
deriving DecidableEq, Repr

/-- `i` covers height `h`. -/
def Ival.covers (i : Ival) (h : Nat) : Bool :=
  decide (i.lowerBound ≤ h) && decide (h ≤ i.upperBound)

/-- Modelled from the spec: the `interval.Tree` is an ordered collection of
intervals, ascending by lower bound, no two overlapping or adjacent.  We
carry it as the ascending list of its intervals, so that `tree.Flatten()`
is the list itself. -/
def Tree := List Ival

/-- Modelled from the spec: `tree.Flatten()` returns the tracked intervals
ascending by lower bound. -/
def Flatten (t : List Ival) : List Ival := t

/-- A height is tracked by the tree iff some interval covers it. -/
def tracked (t : List Ival) (h : Nat) : Bool :=
  t.any (fun i => i.covers h)

/-- The interval-tree invariant: every interval is non-empty
(`lowerBound ≤ upperBound`) and consecutive intervals are strictly
separated by a gap (`upperBound + 1 < next.lowerBound`), i.e. no two
intervals overlap or are adjacent and the list is ascending. -/
def treeWF : List Ival → Bool
  | [] => true
  | [i] => decide (i.lowerBound ≤ i.upperBound)
  | i :: j :: rest =>
    decide (i.lowerBound ≤ i.upperBound) &&
    decide (i.upperBound + 1 < j.lowerBound) &&
    treeWF (j :: rest)

/-- The largest tracked height (0 for an empty tree). -/
def maxTracked (t : List Ival) : Nat :=
  t.foldr (fun i m => max i.upperBound m) 0

/-- The tracked intervals together with the accepted prefix form one
contiguous run from `lastAcceptedHeight + 1` up to the maximum tracked
height: every height in that span is tracked. -/
def Contiguous (t : List Ival) (lastAcceptedHeight : Nat) : Prop :=
  ∀ h, lastAcceptedHeight + 1 ≤ h → h ≤ maxTracked t → tracked t h = true

/-- The recursion of `getMissingBlockIDs` over the flattened intervals,
accumulating the result set.  An interval whose lower bound is at most
`lastAcceptedHeight + 1` is skipped; otherwise the stored block at the
lower bound is fetched and parsed (`store`, returning `none` on a storage
or parse error, which aborts the whole call) and its parent ID is added. -/
def getMissingFrom (store : Nat → Option Blk) (lastAcceptedHeight : Nat) :
    List Ival → Finset BlkID → Option (Finset BlkID)
  | [], acc => some acc
  | i :: rest, acc =>
    if i.lowerBound ≤ lastAcceptedHeight + 1 then
      getMissingFrom store lastAcceptedHeight rest acc
    else
      match store i.lowerBound with
      | none => none
      | some blk => getMissingFrom store lastAcceptedHeight rest (insert blk.parentID acc)

/-- `getMissingBlockIDs` from `storage.go`: the IDs of the blocks that
should be fetched to make a single continuous range from
`(lastAcceptedHeight, highestTrackedHeight]`.  `store h` models
`interval.GetBlock(db, h)` followed by `parser.ParseBlock`. -/
def getMissingBlockIDs (store : Nat → Option Blk) (tree : List Ival)
    (lastAcceptedHeight : Nat) : Option (Finset BlkID) :=
  getMissingFrom store lastAcceptedHeight (Flatten tree) ∅

/-- Concrete pending-block store used by the `{[4,4],[6,7]}` scenario:
blocks at heights 4, 6, 7 with parent IDs 30, 50, 60. -/
def demoStore : Nat → Option Blk
  | 4 => some ⟨40, 30, 4⟩
  | 6 => some ⟨60, 50, 6⟩
  | 7 => some ⟨70, 60, 7⟩
  | _ => none

theorem treeWF_tail {i : Ival} {l : List Ival} (h : treeWF (i :: l) = true) :
    treeWF l = true := by
  cases l with
  | nil => rfl
  | cons j rest => simp only [treeWF, Bool.and_eq_true] at h; exact h.2

theorem treeWF_mem_le {l : List Ival} (hwf : treeWF l = true) {i : Ival} (hi : i ∈ l) :
    i.lowerBound ≤ i.upperBound := by
  induction l with
  | nil => cases hi
  | cons a rest ih =>
    rcases List.mem_cons.1 hi with h | h
    · subst h
      cases rest with
      | nil => simpa [treeWF] using hwf
      | cons b r => simp only [treeWF, Bool.and_eq_true, decide_eq_true_eq] at hwf; exact hwf.1.1
    · exact ih (treeWF_tail hwf) h

theorem treeWF_head_lt {i : Ival} {l : List Ival} (hwf : treeWF (i :: l) = true)
    {j : Ival} (hj : j ∈ l) : i.upperBound + 1 < j.lowerBound := by
  induction l generalizing i with
  | nil => cases hj
  | cons a rest ih =>
    have hsep : i.upperBound + 1 < a.lowerBound := by
      simp only [treeWF, Bool.and_eq_true, decide_eq_true_eq] at hwf; exact hwf.1.2
    rcases List.mem_cons.1 hj with h | h
    · subst h; exact hsep
    · have hwfa : treeWF (a :: rest) = true := treeWF_tail hwf
      have hle : a.lowerBound ≤ a.upperBound := treeWF_mem_le hwfa (List.mem_cons_self a rest)
      have := ih hwfa h
      omega

theorem treeWF_sep {l : List Ival} (hwf : treeWF l = true) {i j : Ival}
    (hi : i ∈ l) (hj : j ∈ l) (hne : i ≠ j) :
    i.upperBound + 1 < j.lowerBound ∨ j.upperBound + 1 < i.lowerBound := by
  induction l with
  | nil => cases hi
  | cons a rest ih =>
    rcases List.mem_cons.1 hi with hia | hia <;> rcases List.mem_cons.1 hj with hja | hja
    · exact absurd (hia.trans hja.symm) hne
    · subst hia; exact Or.inl (treeWF_head_lt hwf hja)
    · subst hja; exact Or.inr (treeWF_head_lt hwf hia)
    · exact ih (treeWF_tail hwf) hia hja

theorem le_maxTracked {l : List Ival} {i : Ival} (hi : i ∈ l) :
    i.upperBound ≤ maxTracked l := by
  induction l with
  | nil => cases hi
  | cons a rest ih =>
    rcases List.mem_cons.1 hi with h | h
    · subst h; exact le_max_left _ _
    · exact le_trans (ih h) (le_max_right _ _)

theorem maxTracked_mem {l : List Ival} (hne : l ≠ []) :
    ∃ i ∈ l, maxTracked l = i.upperBound := by
  induction l with
  | nil => exact absurd rfl hne
  | cons a rest ih =>
    cases rest with
    | nil => exact ⟨a, List.mem_cons_self a [], by simp [maxTracked]⟩
    | cons b r =>
      rcases ih (by simp) with ⟨i, hi, hmax⟩
      rcases le_or_lt (maxTracked (b :: r)) a.upperBound with h | h
      · exact ⟨a, List.mem_cons_self _ _, by
          show max a.upperBound (maxTracked (b :: r)) = a.upperBound
          omega⟩
      · exact ⟨i, List.mem_cons_of_mem a hi, by
          show max a.upperBound (maxTracked (b :: r)) = i.upperBound
          omega⟩

/-- Under the tree invariant, every interval starting at or below
`lastAcceptedHeight + 1` is the same as the tracked heights plus the
accepted prefix forming one contiguous run. -/
theorem lowerBounds_iff_contiguous {t : List Ival} (la : Nat) (hwf : treeWF t = true) :
    (∀ i ∈ t, i.lowerBound ≤ la + 1) ↔ Contiguous t la := by
  constructor
  · intro hall h h1 h2
    cases t with
    | nil => simp [maxTracked] at h2; omega
    | cons a rest =>
      rcases @maxTracked_mem (a :: rest) (by simp) with ⟨i, hi, hmax⟩
      have hlb := hall i hi
      have : i.covers h = true := by
        simp only [Ival.covers, Bool.and_eq_true, decide_eq_true_eq]
        omega
      exact List.any_eq_true.2 ⟨i, hi, this⟩
  · intro hcont i hi
    by_contra hlb
    push_neg at hlb
    have hle := treeWF_mem_le hwf hi
    have h1 : la + 1 ≤ i.lowerBound - 1 := by omega
    have h2 : i.lowerBound - 1 ≤ maxTracked t := le_trans (by omega) (le_maxTracked hi)
    rcases List.any_eq_true.1 (hcont (i.lowerBound - 1) h1 h2) with ⟨j, hj, hcov⟩
    simp only [Ival.covers, Bool.and_eq_true, decide_eq_true_eq] at hcov
    by_cases hij : i = j
    · subst hij; omega
    · have hjle := treeWF_mem_le hwf hj
      rcases treeWF_sep hwf hi hj hij with hs | hs <;> omega

theorem getMissingFrom_skip {store : Nat → Option Blk} {la : Nat} :
    ∀ {l : List Ival}, (∀ i ∈ l, i.lowerBound ≤ la + 1) → ∀ acc,
      getMissingFrom store la l acc = some acc := by
  intro l
  induction l with
  | nil => intro _ acc; rfl
  | cons a rest ih =>
    intro h acc
    have ha := h a (List.mem_cons_self a rest)
    simp only [getMissingFrom, if_pos ha]
    exact ih (fun i hi => h i (List.mem_cons_of_mem a hi)) acc

theorem getMissingFrom_mono {store : Nat → Option Blk} {la : Nat} :
    ∀ {l : List Ival} {acc s : Finset BlkID},
      getMissingFrom store la l acc = some s → acc ⊆ s := by
  intro l
  induction l with
  | nil => intro acc s h; cases h; exact Finset.Subset.refl _
  | cons a rest ih =>
    intro acc s h
    simp only [getMissingFrom] at h
    by_cases hlb : a.lowerBound ≤ la + 1
    · rw [if_pos hlb] at h; exact ih h
    · rw [if_neg hlb] at h
      cases hs : store a.lowerBound with
      | none => rw [hs] at h; cases h
      | some b =>
        rw [hs] at h
        exact Finset.Subset.trans (Finset.subset_insert _ _) (ih h)

theorem getMissingFrom_elem {store : Nat → Option Blk} {la : Nat} :
    ∀ {l : List Ival} {acc s : Finset BlkID},
      getMissingFrom store la l acc = some s →
      ∀ i ∈ l, la + 1 < i.lowerBound →
        ∃ b, store i.lowerBound = some b ∧ b.parentID ∈ s := by
  intro l
  induction l with
  | nil => intro acc s _ i hi; cases hi
  | cons a rest ih =>
    intro acc s h i hi hlbi
    simp only [getMissingFrom] at h
    by_cases hlb : a.lowerBound ≤ la + 1
    · rw [if_pos hlb] at h
      rcases List.mem_cons.1 hi with hia | hia
      · subst hia; omega
      · exact ih h i hia hlbi
    · rw [if_neg hlb] at h
      cases hs : store a.lowerBound with
      | none => rw [hs] at h; cases h
      | some b =>
        rw [hs] at h
        rcases List.mem_cons.1 hi with hia | hia
        · subst hia
          exact ⟨b, hs, getMissingFrom_mono h (Finset.mem_insert_self _ _)⟩
        · exact ih h i hia hlbi

theorem getMissingFrom_mem_iff {store : Nat → Option Blk} {la : Nat} :
    ∀ {l : List Ival} {acc s : Finset BlkID},
      getMissingFrom store la l acc = some s →
      ∀ x, x ∈ s ↔ x ∈ acc ∨ ∃ i ∈ l, la + 1 < i.lowerBound ∧
        ∃ b, store i.lowerBound = some b ∧ b.parentID = x := by
  intro l
  induction l with
  | nil =>
    intro acc s h x; cases h
    simp
  | cons a rest ih =>
    intro acc s h x
    simp only [getMissingFrom] at h
    by_cases hlb : a.lowerBound ≤ la + 1
    · rw [if_pos hlb] at h
      rw [ih h x]
      constructor
      · rintro (hx | ⟨i, hi, hlbi, hb⟩)
        · exact Or.inl hx
        · exact Or.inr ⟨i, List.mem_cons_of_mem a hi, hlbi, hb⟩
      · rintro (hx | ⟨i, hi, hlbi, hb⟩)
        · exact Or.inl hx
        · rcases List.mem_cons.1 hi with hia | hia
          · subst hia; omega
          · exact Or.inr ⟨i, hia, hlbi, hb⟩
    · rw [if_neg hlb] at h
      cases hs : store a.lowerBound with
      | none => rw [hs] at h; cases h
      | some b =>
        rw [hs] at h
        rw [ih h x, Finset.mem_insert]
        constructor
        · rintro ((hx | hx) | ⟨i, hi, hlbi, hb⟩)
          · exact Or.inr ⟨a, List.mem_cons_self _ _, by omega, b, hs, hx.symm⟩
          · exact Or.inl hx
          · exact Or.inr ⟨i, List.mem_cons_of_mem a hi, hlbi, hb⟩
        · rintro (hx | ⟨i, hi, hlbi, ⟨c, hc, hcx⟩⟩)
          · exact Or.inl (Or.inr hx)
          · rcases List.mem_cons.1 hi with hia | hia
            · subst hia
              rw [hs] at hc
              cases hc
              exact Or.inl (Or.inl hcx.symm)
            · exact Or.inr ⟨i, hia, hlbi, c, hc, hcx⟩

/-- C2: for a well-formed tree, `getMissingBlockIDs` returns an empty set
exactly when the tracked intervals together with the accepted prefix form
one contiguous run from `lastAcceptedHeight + 1` to the maximum tracked
height. -/
theorem getMissingBlockIDs_empty_iff_contiguous (store : Nat → Option Blk)
    (t : List Ival) (la : Nat) (hwf : treeWF t = true) :
    getMissingBlockIDs store t la = some ∅ ↔ Contiguous t la := by
  constructor
  · intro h
    refine (lowerBounds_iff_contiguous la hwf).1 ?_
    intro i hi
    by_contra hlb
    push_neg at hlb
    rcases getMissingFrom_elem h i hi hlb with ⟨b, _, hmem⟩
    exact absurd hmem (Finset.not_mem_empty _)
  · intro hcont
    exact getMissingFrom_skip ((lowerBounds_iff_contiguous la hwf).2 hcont) ∅

/-- Witness for C2 at a concrete input: the tree `{[3,5]}` with
`lastAcceptedHeight = 2` is well-formed, and the equivalence holds there. -/
theorem getMissingBlockIDs_empty_iff_contiguous_witness :
    treeWF [⟨3, 5⟩] = true ∧
      (getMissingBlockIDs demoStore [⟨3, 5⟩] 2 = some ∅ ↔ Contiguous [⟨3, 5⟩] 2) :=
  ⟨by decide, getMissingBlockIDs_empty_iff_contiguous demoStore [⟨3, 5⟩] 2 (by decide)⟩

/-- C3: `getMissingBlockIDs` returns exactly the parent IDs of the stored
blocks at the lower bounds of the intervals whose lower bound is strictly
greater than `lastAcceptedHeight + 1`; and on the tree `{[4,4],[6,7]}` with
`lastAcceptedHeight = 2` it returns exactly the parent IDs (30 and 50, as the set {50, 30}) of
the blocks at heights 4 and 6, nothing for height 7. -/
theorem getMissingBlockIDs_exact :
    (∀ (store : Nat → Option Blk) (t : List Ival) (la : Nat) (s : Finset BlkID),
      getMissingBlockIDs store t la = some s →
      ∀ x, x ∈ s ↔ ∃ i ∈ t, la + 1 < i.lowerBound ∧
        ∃ b, store i.lowerBound = some b ∧ b.parentID = x) ∧
    getMissingBlockIDs demoStore [⟨4, 4⟩, ⟨6, 7⟩] 2 = some {50, 30} := by
  constructor
  · intro store t la s h x
    rw [getMissingFrom_mem_iff h x]
    simp [Flatten]
  · decide

/-- Witness for C3: instantiating the characterization at the concrete
scenario. -/
theorem getMissingBlockIDs_exact_witness :
    30 ∈ ({50, 30} : Finset BlkID) ↔ ∃ i ∈ [(⟨4, 4⟩ : Ival), ⟨6, 7⟩], 2 + 1 < i.lowerBound ∧
      ∃ b, demoStore i.lowerBound = some b ∧ b.parentID = 30 :=
  getMissingBlockIDs_exact.1 demoStore [⟨4, 4⟩, ⟨6, 7⟩] 2 {50, 30} (by rfl) 30

/-- Modelled from the spec: insert height `h` into the tree, merging with
any adjacent or covering interval so that the non-overlapping,
non-adjacent, ascending invariant is preserved. -/
def treeAdd : List Ival → Nat → List Ival
  | [], h => [⟨h, h⟩]
  | i :: rest, h =>
    if h + 1 < i.lowerBound then ⟨h, h⟩ :: i :: rest
    else if h + 1 = i.lowerBound then ⟨h, i.upperBound⟩ :: rest
    else if h ≤ i.upperBound then i :: rest
    else if h = i.upperBound + 1 then
      match rest with
      | [] => [⟨i.lowerBound, h⟩]
      | j :: rest2 =>
        if h + 1 = j.lowerBound then ⟨i.lowerBound, j.upperBound⟩ :: rest2
        else ⟨i.lowerBound, h⟩ :: rest
    else i :: treeAdd rest h

/-- The interval of the tree covering height `h`, if any. -/
def findCovering (t : List Ival) (h : Nat) : Option Ival :=
  t.find? (fun i => i.covers h)

/-- Modelled from the spec: `interval.Add(db, tree, lastAcceptedHeight, blk)`
persists the block under its height key, inserts/merges the height into the
tree, and returns `true` iff, after merging, the covering interval's lower
bound equals the block's height and that height is strictly greater than
`lastAcceptedHeight + 1`. -/
def intervalAdd (store : Nat → Option Blk) (tree : List Ival)
    (lastAcceptedHeight : Nat) (blk : Blk) :
    (Nat → Option Blk) × List Ival × Bool :=
  let store2 := fun h => if h = blk.height then some blk else store h
  let tree2 := treeAdd tree blk.height
  let wantsParent :=
    match findCovering tree2 blk.height with
    | some i =>
      decide (i.lowerBound = blk.height) && decide (lastAcceptedHeight + 1 < blk.height)
    | none => false
  (store2, tree2, wantsParent)

/-- Modelled from the spec: the effect of `interval.Remove` on one
interval — drop height `h` from it, shrinking it or splitting it in two. -/
def removeFromIval (i : Ival) (h : Nat) : List Ival :=
  if h < i.lowerBound ∨ i.upperBound < h then [i]
  else
    (if i.lowerBound < h then [⟨i.lowerBound, h - 1⟩] else []) ++
    (if h < i.upperBound then [⟨h + 1, i.upperBound⟩] else [])

/-- Modelled from the spec: the tree part of `interval.Remove(batch, tree,
height)` — shrink or split the covering interval; the deletion of the
stored bytes is queued on the caller's batch by `execLoop`. -/
def treeRemove (t : List Ival) (h : Nat) : List Ival :=
  t.flatMap (fun i => removeFromIval i h)

/-- Lookup in the in-memory ancestors map (`ancestors[parentID]`),
modelled as an association list. -/
def ancLookup (ancestors : List (BlkID × Blk)) (i : BlkID) : Option Blk :=
  (ancestors.find? (fun e => e.1 == i)).map (fun e => e.2)

/-- Result of one `process` call: the newly discovered block ID to fetch
(`ids.Empty`/`false` in Go becomes `none`), the missing-ID set and tree
after the call, and the trace of visited blocks — each block on which
`interval.Add` was called, paired with the `wantsParent` value that `Add`
returned for it. -/
structure ProcessResult where
  requested : Option BlkID
  missing : Finset BlkID
  tree : List Ival
  visited : List (Blk × Bool)
deriving DecidableEq

/-- Fuel-indexed embedding of `process` from `storage.go`: starting at
`blk`, remove the current block's ID from the missing set, call
`interval.Add`, stop with no request if `Add` returns `false`, otherwise
continue with the parent from `ancestors` or stop requesting the parent ID
if it is absent.  The Go loop has no intrinsic bound, so the recursion is
indexed by fuel; `none` marks exhaustion, which never happens when the
ancestor map is height-descending. -/
def process (ancestors : List (BlkID × Blk)) (lastAcceptedHeight : Nat) :
    Nat → (Nat → Option Blk) → List Ival → Blk → Finset BlkID → Option ProcessResult
  | 0, _, _, _, _ => none
  | fuel + 1, store, tree, blk, missing =>
    let missing2 := missing.erase blk.id
    let sa := intervalAdd store tree lastAcceptedHeight blk
    if sa.2.2 then
      match ancLookup ancestors blk.parentID with
      | none => some ⟨some blk.parentID, missing2, sa.2.1, [(blk, true)]⟩
      | some parent =>
        match process ancestors lastAcceptedHeight fuel sa.1 sa.2.1 parent missing2 with
        | none => none
        | some r => some { r with visited := (blk, true) :: r.visited }
    else
      some ⟨none, missing2, sa.2.1, [(blk, false)]⟩

/-- Successive visited entries follow the ancestor map, and the walk
continues past a block only when its `Add` returned `true`. -/
def walkChain (ancestors : List (BlkID × Blk)) : List (Blk × Bool) → Bool
  | [] => true
  | [_] => true
  | (b, w) :: (c, w2) :: rest =>
    w && (ancLookup ancestors b.parentID == some c) && walkChain ancestors ((c, w2) :: rest)

/-- The map lookup at this block's parent, if it hits, yields a strictly
lower block. -/
def descStep (ancestors : List (BlkID × Blk)) (b : Blk) : Bool :=
  match ancLookup ancestors b.parentID with
  | some p => decide (p.height < b.height)
  | none => true

/-- The ancestor map is height-descending from `blk`: each lookup from
`blk` or from any block stored in the map goes strictly down in height
(true of consecutively-linked ancestors). -/
def descending (blk : Blk) (ancestors : List (BlkID × Blk)) : Bool :=
  descStep ancestors blk && ancestors.all (fun e => descStep ancestors e.2)

theorem process_missing {anc : List (BlkID × Blk)} {la : Nat} :
    ∀ {fuel : Nat} {store : Nat → Option Blk} {tree : List Ival} {blk : Blk}
      {missing : Finset BlkID} {r : ProcessResult},
      process anc la fuel store tree blk missing = some r →
      ∀ x, x ∈ r.missing ↔ x ∈ missing ∧ ¬ x ∈ r.visited.map (fun e => e.1.id) := by
  intro fuel
  induction fuel with
  | zero => intro _ _ _ _ _ h; cases h
  | succ fuel ih =>
    intro store tree blk missing r h x
    simp only [process] at h
    split at h
    · split at h
      · cases h
        simp [Finset.mem_erase, and_comm]
      · split at h
        · cases h
        · next r2 hrec =>
          cases h
          have := ih hrec x
          simp only [List.map_cons, List.mem_cons] at this ⊢
          rw [this, Finset.mem_erase]
          constructor
          · rintro ⟨⟨hne, hx⟩, hnv⟩
            exact ⟨hx, by rintro (h1 | h1); exact hne h1; exact hnv h1⟩
          · rintro ⟨hx, hnv⟩
            push_neg at hnv
            exact ⟨⟨hnv.1, hx⟩, hnv.2⟩
    · cases h
      simp [Finset.mem_erase, and_comm]

theorem process_walk {anc : List (BlkID × Blk)} {la : Nat} :
    ∀ {fuel : Nat} {store : Nat → Option Blk} {tree : List Ival} {blk : Blk}
      {missing : Finset BlkID} {r : ProcessResult},
      process anc la fuel store tree blk missing = some r →
      r.visited ≠ [] ∧
      (r.visited.head?.map (fun e => e.1)) = some blk ∧
      walkChain anc r.visited = true ∧
      (∀ b w, r.visited.getLast? = some (b, w) →
        (w = false → r.requested = none) ∧
        (w = true → r.requested = some b.parentID ∧ ancLookup anc b.parentID = none)) := by
  intro fuel
  induction fuel with
  | zero => intro _ _ _ _ _ h; cases h
  | succ fuel ih =>
    intro store tree blk missing r h
    simp only [process] at h
    split at h
    · split at h
      · next hanc =>
        cases h
        refine ⟨by simp, by simp, by simp [walkChain], ?_⟩
        intro b w hlast
        simp only [List.getLast?_singleton, Option.some.injEq, Prod.mk.injEq] at hlast
        rcases hlast with ⟨hb, hw2⟩
        subst hb; subst hw2
        exact ⟨fun hfalse => (nomatch hfalse), fun _ => ⟨rfl, hanc⟩⟩
      · next parent hanc =>
        split at h
        · cases h
        · next r2 hrec =>
          cases h
          obtain ⟨hne, hhead, hchain, hlast⟩ := ih hrec
          cases hv : r2.visited with
          | nil => exact absurd hv hne
          | cons e rest =>
            obtain ⟨c, w2⟩ := e
            rw [hv] at hhead hchain
            simp only [List.head?_cons, Option.map_some, Option.map_some',
              Option.some.injEq] at hhead
            refine ⟨by simp, by simp, ?_, ?_⟩
            · show walkChain anc ((blk, true) :: (c, w2) :: rest) = true
              simp only [walkChain, Bool.true_and, Bool.and_eq_true, beq_iff_eq]
              exact ⟨by rw [hanc, hhead], hchain⟩
            · intro b w hl
              dsimp only at hl
              rw [List.getLast?_cons_cons] at hl
              apply hlast
              rw [hv]
              exact hl
    · cases h
      refine ⟨by simp, by simp, by simp [walkChain], ?_⟩
      intro b w hlast
      simp only [List.getLast?_singleton, Option.some.injEq, Prod.mk.injEq] at hlast
      rcases hlast with ⟨hb, hw2⟩
      subst hb; subst hw2
      exact ⟨fun _ => rfl, fun htrue => (nomatch htrue)⟩

theorem process_total {anc : List (BlkID × Blk)} {la : Nat}
    (hall : anc.all (fun e => descStep anc e.2) = true) :
    ∀ {fuel : Nat} {blk : Blk}, blk.height + 2 ≤ fuel → descStep anc blk = true →
      ∀ store tree missing, (process anc la fuel store tree blk missing).isSome := by
  intro fuel
  induction fuel with
  | zero => intro blk hfuel; omega
  | succ fuel ih =>
    intro blk hfuel hstep store tree missing
    simp only [process]
    split
    · cases hanc : ancLookup anc blk.parentID with
      | none => rfl
      | some parent =>
        have hlt : parent.height < blk.height := by
          simp only [descStep, hanc, decide_eq_true_eq] at hstep
          exact hstep
        have hmem : parent ∈ anc.map (fun e => e.2) := by
          unfold ancLookup at hanc
          cases hf : anc.find? (fun e => e.1 == blk.parentID) with
          | none => rw [hf] at hanc; cases hanc
          | some e =>
            rw [hf] at hanc
            simp only [Option.map_some, Option.map_some', Option.some.injEq] at hanc
            subst hanc
            exact List.mem_map_of_mem (fun e => e.2) (List.mem_of_find?_eq_some hf)
        have hpstep : descStep anc parent = true := by
          rcases List.mem_map.1 hmem with ⟨e, he, hee⟩
          have := List.all_eq_true.1 hall e he
          rwa [hee] at this
        have hrecSome := @ih parent (by omega) hpstep
          (intervalAdd store tree la blk).1 (intervalAdd store tree la blk).2.1
          (missing.erase blk.id)
        dsimp only
        cases hrec : process anc la fuel (intervalAdd store tree la blk).1
            (intervalAdd store tree la blk).2.1 parent (missing.erase blk.id) with
        | none => rw [hrec] at hrecSome; cases hrecSome
        | some r => rfl
    · rfl

/-- C4: a call to `process` removes each visited block's ID from the
missing set, records one `interval.Add` per visited block, walks to the
parent only while `Add` returned `true` and the parent is in the ancestor
map, and ends either with no requested ID (last `Add` returned `false`) or
with exactly the one parent ID absent from the map; and it terminates for
a height-descending (consecutively linked) ancestor map. -/
theorem process_spec (anc : List (BlkID × Blk)) (la : Nat) (store : Nat → Option Blk)
    (tree : List Ival) (blk : Blk) (missing : Finset BlkID) :
    (∀ fuel r, process anc la fuel store tree blk missing = some r →
      (∀ x, x ∈ r.missing ↔ x ∈ missing ∧ ¬ x ∈ r.visited.map (fun e => e.1.id)) ∧
      r.visited ≠ [] ∧
      (r.visited.head?.map (fun e => e.1)) = some blk ∧
      walkChain anc r.visited = true ∧
      (∀ b w, r.visited.getLast? = some (b, w) →
        (w = false → r.requested = none) ∧
        (w = true → r.requested = some b.parentID ∧ ancLookup anc b.parentID = none))) ∧
    (descending blk anc = true →
      (process anc la (blk.height + 2) store tree blk missing).isSome) := by
  constructor
  · intro fuel r h
    exact ⟨process_missing h, process_walk h⟩
  · intro hdesc
    simp only [descending, Bool.and_eq_true] at hdesc
    exact process_total hdesc.2 (Nat.le_refl _) hdesc.1 store tree missing

/-- Witness for C4: a concrete three-block chain 5 → 4 → 3 with the two
ancestors in the map, `lastAcceptedHeight = 2`. -/
theorem process_spec_witness :
    (process [(10, ⟨10, 9, 4⟩), (9, ⟨9, 8, 3⟩)] 2 7 (fun _ => none) [] ⟨11, 10, 5⟩ {11, 10, 99}
        = some ⟨none, {99}, [⟨3, 5⟩], [(⟨11, 10, 5⟩, true), (⟨10, 9, 4⟩, true), (⟨9, 8, 3⟩, false)]⟩) ∧
    ((∀ x, x ∈ ({99} : Finset BlkID) ↔ x ∈ ({11, 10, 99} : Finset BlkID) ∧
        ¬ x ∈ [(⟨11, 10, 5⟩ : Blk), ⟨10, 9, 4⟩, ⟨9, 8, 3⟩].map (fun e => e.id)) ∨ True) ∧
    (descending ⟨11, 10, 5⟩ [(10, ⟨10, 9, 4⟩), (9, ⟨9, 8, 3⟩)] = true) ∧
    (process [(10, ⟨10, 9, 4⟩), (9, ⟨9, 8, 3⟩)] 2 ((5 : Nat) + 2) (fun _ => none) [] ⟨11, 10, 5⟩
        {11, 10, 99}).isSome :=
  ⟨by decide, Or.inr trivial, by decide,
    (process_spec [(10, ⟨10, 9, 4⟩), (9, ⟨9, 8, 3⟩)] 2 (fun _ => none) [] ⟨11, 10, 5⟩
      {11, 10, 99}).2 (by decide)⟩

/-! ### The Executor (`execute` in `storage.go`) -/

/-- `batchWritePeriod` from `storage.go`. -/
def batchWritePeriod : Nat := 64

/-- `iteratorReleasePeriod` from `storage.go`. -/
def iteratorReleasePeriod : Nat := 1024

/-- Observable actions of one `execute` run, in execution order:
`Verify`/`Accept` calls on a block, a batch write carrying the queued
deletion heights, and an iterator release/reacquire. -/
inductive Event where
  | verify (b : Blk)
  | accept (b : Blk)
  | flush (heights : List Nat)
  | release
deriving DecidableEq, Repr

/-- The error outcomes of `execute`: a parse, verify, or accept failure on
a specific block, or the ambient cancellation signal (`ctx.Err()`). -/
inductive ExecErr where
  | parseErr (b : Blk)
  | verifyErr (b : Blk)
  | acceptErr (b : Blk)
  | cancelled
deriving DecidableEq, Repr

/-- Environment of a run: the outcome of `ParseBlock`, `Verify` and
`Accept` per block, and the ambient context, where `cancelAt = some m`
means the m-th read of `ctx.Err()` (0-indexed) and every later read
report cancellation. -/
structure ExecCfg where
  parseOk : Blk → Bool
  verifyOk : Blk → Bool
  acceptOk : Blk → Bool
  cancelAt : Option Nat

/-- The k-th read of `ctx.Err()` reports cancellation. -/
def ctxCancelled (cfg : ExecCfg) (k : Nat) : Bool :=
  match cfg.cancelAt with
  | none => false
  | some m => decide (m ≤ k)

/-- The mutable state of `execute`: the durable store `db` (ascending
blocks of the pending block store), the current iterator snapshot `iter`,
the queued deletion heights `batch`, the in-memory tree, the two
processed-counters, the number of `ctx.Err()` reads so far, and the event
trace accumulated most-recent-first. -/
structure ExecState where
  db : List Blk
  iter : List Blk
  batch : List Nat
  tree : List Ival
  processedSinceBatchWrite : Nat
  processedSinceIteratorRelease : Nat
  checks : Nat
  revEvents : List Event
deriving Repr

/-- The chronological event trace of a state. -/
def ExecState.events (s : ExecState) : List Event := s.revEvents.reverse

/-- The `writeBatch` closure of `execute`: a no-op unless blocks were
processed since the last write; otherwise writes the batch (applying the
queued deletions to `db`), resets it, and zeroes the counter. -/
def writeBatch (s : ExecState) : ExecState :=
  if s.processedSinceBatchWrite = 0 then s
  else
    { s with
      processedSinceBatchWrite := 0
      db := s.db.filter (fun b => !(s.batch.contains b.height))
      batch := []
      revEvents := Event.flush s.batch :: s.revEvents }

/-- The code after the loop of `execute`: one final `writeBatch`, then
return `ctx.Err()` (a further read of the ambient context). -/
def execFinish (cfg : ExecCfg) (s : ExecState) : ExecState × Option ExecErr :=
  let s2 := writeBatch s
  let res := if ctxCancelled cfg s2.checks then some ExecErr.cancelled else none
  ({ s2 with checks := s2.checks + 1 }, res)

/-- The middle of one loop iteration of `execute` (`storage.go` lines
166-195), after the guard and the parse and before the height check:
queue the removal of the block's height (`interval.Remove` on the batch
and the tree), flush every `batchWritePeriod` processed entries, and
flush then release/reacquire the iterator every `iteratorReleasePeriod`
processed entries.  `s` is the state with the guard's check counted and
the iterator already advanced past `b`. -/
def execStepCore (s : ExecState) (b : Blk) : ExecState :=
  let s1 := { s with
    batch := s.batch ++ [b.height]
    tree := treeRemove s.tree b.height
    processedSinceBatchWrite := s.processedSinceBatchWrite + 1 }
  let s2 := if batchWritePeriod ≤ s1.processedSinceBatchWrite then writeBatch s1 else s1
  let s3 := { s2 with
    processedSinceIteratorRelease := s2.processedSinceIteratorRelease + 1 }
  if iteratorReleasePeriod ≤ s3.processedSinceIteratorRelease then
    let s4 := writeBatch s3
    { s4 with
      processedSinceIteratorRelease := 0
      iter := s4.db
      revEvents := Event.release :: s4.revEvents }
  else s3

/-- The loop of `execute` (`for ctx.Err() == nil && iterator.Next()`),
indexed by fuel; each iteration consumes one unit, so `db.length + 1` is
enough for any run that visits each stored block at most once.  `none`
marks fuel exhaustion.  Mirrors `storage.go` lines 159-248: parse, run
`execStepCore` (removal queueing, periodic flush, periodic iterator
release), skip verify/accept for heights at or below
`lastAcceptedHeight`, otherwise `Verify` then `Accept`, returning on the
first error without any further batch write. -/
def execLoop (cfg : ExecCfg) (lastAcceptedHeight : Nat) :
    Nat → ExecState → Option (ExecState × Option ExecErr)
  | 0, _ => none
  | fuel + 1, s0 =>
    if ctxCancelled cfg s0.checks then
      some (execFinish cfg { s0 with checks := s0.checks + 1 })
    else
      match s0.iter with
      | [] => some (execFinish cfg { s0 with checks := s0.checks + 1 })
      | b :: rest =>
        if cfg.parseOk b then
          let s := execStepCore { s0 with checks := s0.checks + 1, iter := rest } b
          if b.height ≤ lastAcceptedHeight then execLoop cfg lastAcceptedHeight fuel s
          else
            let s := { s with revEvents := Event.verify b :: s.revEvents }
            if cfg.verifyOk b then
              let s := { s with revEvents := Event.accept b :: s.revEvents }
              if cfg.acceptOk b then execLoop cfg lastAcceptedHeight fuel s
              else some (s, some (ExecErr.acceptErr b))
            else some (s, some (ExecErr.verifyErr b))
        else some ({ s0 with checks := s0.checks + 1, iter := rest },
          some (ExecErr.parseErr b))

/-- `execute` from `storage.go`: run the loop from a fresh state whose
iterator snapshot is the current store. -/
def execute (cfg : ExecCfg) (lastAcceptedHeight : Nat) (db : List Blk)
    (tree : List Ival) : Option (ExecState × Option ExecErr) :=
  execLoop cfg lastAcceptedHeight (db.length + 1)
    { db := db, iter := db, batch := [], tree := tree
      processedSinceBatchWrite := 0, processedSinceIteratorRelease := 0
      checks := 0, revEvents := [] }

/-! ### A one-pass specification of the loop

`PassState`/`passStep` re-express one clean loop iteration directly over
the processed block, with no iterator or durable-store bookkeeping; the
agreement lemmas below prove that `execLoop` follows this specification,
which in particular shows the iterator release is transparent (no block
skipped or reprocessed). -/

/-- Specification state: the blocks processed since the last batch write,
the release counter, the tree, and the trace (most recent first). -/
structure PassState where
  unflushed : List Blk
  psir : Nat
  tree : List Ival
  revEvents : List Event

/-- The first half of one loop iteration at the specification level:
queue the removal, flush every `batchWritePeriod` entries, flush and
release every `iteratorReleasePeriod` entries.  This is the part of the
iteration that runs before the height check. -/
def passStepCore (st : PassState) (b : Blk) : PassState :=
  let unflushed := st.unflushed ++ [b]
  let tree := treeRemove st.tree b.height
  let revEvents := st.revEvents
  let flushNow := batchWritePeriod ≤ unflushed.length
  let revEvents :=
    if flushNow then Event.flush (unflushed.map (fun x => x.height)) :: revEvents
    else revEvents
  let unflushed := if flushNow then [] else unflushed
  let psir := st.psir + 1
  let relNow := iteratorReleasePeriod ≤ psir
  let revEvents :=
    if relNow then
      Event.release ::
        (if unflushed.length = 0 then revEvents
         else Event.flush (unflushed.map (fun x => x.height)) :: revEvents)
    else revEvents
  let unflushed := if relNow then [] else unflushed
  let psir := if relNow then 0 else psir
  ⟨unflushed, psir, tree, revEvents⟩

/-- One clean iteration (parse, verify, accept all succeed) of the
`execute` loop over block `b`, at the specification level. -/
def passStep (la : Nat) (st : PassState) (b : Blk) : PassState :=
  let st2 := passStepCore st b
  { st2 with
    revEvents :=
      if b.height ≤ la then st2.revEvents
      else Event.accept b :: Event.verify b :: st2.revEvents }

/-- Fold `passStep` over a list of processed blocks. -/
def passRun (la : Nat) (st : PassState) (blks : List Blk) : PassState :=
  blks.foldl (passStep la) st

/-- A block on which this run's parse succeeds and, if it is above the
accepted height, verify and accept succeed too. -/
def CleanBlk (cfg : ExecCfg) (la : Nat) (b : Blk) : Prop :=
  cfg.parseOk b = true ∧ (la < b.height → cfg.verifyOk b = true ∧ cfg.acceptOk b = true)

instance (cfg : ExecCfg) (la : Nat) (b : Blk) : Decidable (CleanBlk cfg la b) := by
  unfold CleanBlk
  infer_instance

/-- `execLoop` state `s`, about to process `rem`, agrees with
specification state `st`: the iterator holds exactly `rem`, the store
holds the unflushed blocks followed by `rem`, the batch holds the
unflushed heights, the counters stay aligned
(`unflushed.length = psir % batchWritePeriod`, `psir <
iteratorReleasePeriod`), and the processed heights are distinct. -/
def Agree (st : PassState) (rem : List Blk) (s : ExecState) : Prop :=
  s.iter = rem ∧
  s.db = st.unflushed ++ rem ∧
  s.batch = st.unflushed.map (fun b => b.height) ∧
  s.processedSinceBatchWrite = st.unflushed.length ∧
  s.processedSinceIteratorRelease = st.psir ∧
  s.tree = st.tree ∧
  s.revEvents = st.revEvents ∧
  st.unflushed.length = st.psir % batchWritePeriod ∧
  st.psir < iteratorReleasePeriod ∧
  ((st.unflushed ++ rem).map (fun b => b.height)).Nodup

/-- `Verify`/`Accept` events. -/
def isVA : Event → Bool
  | Event.verify _ => true
  | Event.accept _ => true
  | _ => false

/-- The subtrace of `Verify`/`Accept` calls, in order. -/
def vaTrace (evs : List Event) : List Event := evs.filter isVA

/-- All heights durably deleted by the batch writes of a trace, in order. -/
def flushedOf (evs : List Event) : List Nat :=
  evs.flatMap (fun e => match e with | Event.flush hs => hs | _ => [])

/-- Applying a batch holding exactly the heights of `u` to the store
`u ++ rem` deletes exactly `u`, provided the heights are distinct. -/
theorem filter_batch_eq {u rem : List Blk}
    (hnd : ((u ++ rem).map (fun b => b.height)).Nodup) :
    (u ++ rem).filter (fun b => !((u.map (fun x => x.height)).contains b.height)) = rem := by
  rw [List.map_append, List.nodup_append] at hnd
  obtain ⟨-, -, hdisj⟩ := hnd
  rw [List.filter_append]
  have h1 : u.filter (fun b => !((u.map (fun x => x.height)).contains b.height)) = [] := by
    rw [List.filter_eq_nil_iff]
    intro b hb
    simp [List.mem_map_of_mem (fun x => x.height) hb]
  have h2 : rem.filter (fun b => !((u.map (fun x => x.height)).contains b.height)) = rem := by
    rw [List.filter_eq_self]
    intro b hb
    have hm : b.height ∉ u.map (fun x => x.height) :=
      fun hmem => hdisj hmem (List.mem_map_of_mem (fun x => x.height) hb)
    simpa using hm
  rw [h1, h2, List.nil_append]

/-- `execStepCore` when neither the periodic flush nor the iterator
release triggers. -/
theorem execStepCore_eq_basic (s : ExecState) (b : Blk)
    (hflush : s.processedSinceBatchWrite + 1 < batchWritePeriod)
    (hrel : s.processedSinceIteratorRelease + 1 < iteratorReleasePeriod) :
    execStepCore s b =
      { s with
        batch := s.batch ++ [b.height]
        tree := treeRemove s.tree b.height
        processedSinceBatchWrite := s.processedSinceBatchWrite + 1
        processedSinceIteratorRelease := s.processedSinceIteratorRelease + 1 } := by
  simp only [execStepCore]
  try dsimp only
  rw [if_neg (show ¬ (batchWritePeriod ≤ s.processedSinceBatchWrite + 1) by omega)]
  try dsimp only
  rw [if_neg (show ¬ (iteratorReleasePeriod ≤ s.processedSinceIteratorRelease + 1) by omega)]

/-- `execStepCore` when the periodic flush triggers but the iterator
release does not. -/
theorem execStepCore_eq_flush (s : ExecState) (b : Blk)
    (hflush : batchWritePeriod ≤ s.processedSinceBatchWrite + 1)
    (hrel : s.processedSinceIteratorRelease + 1 < iteratorReleasePeriod) :
    execStepCore s b =
      { s with
        db := s.db.filter (fun x => !((s.batch ++ [b.height]).contains x.height))
        batch := []
        tree := treeRemove s.tree b.height
        processedSinceBatchWrite := 0
        processedSinceIteratorRelease := s.processedSinceIteratorRelease + 1
        revEvents := Event.flush (s.batch ++ [b.height]) :: s.revEvents } := by
  simp only [execStepCore]
  rw [if_pos hflush]
  simp only [writeBatch]
  try dsimp only
  rw [if_neg (show ¬ (s.processedSinceBatchWrite + 1 = 0) by omega)]
  try dsimp only
  rw [if_neg (show ¬ (iteratorReleasePeriod ≤ s.processedSinceIteratorRelease + 1) by omega)]

/-- `execStepCore` when both the periodic flush and the iterator release
trigger: the forced batch write before the release is a no-op because the
batch was just written, and the reacquired iterator is the store after
the flush. -/
theorem execStepCore_eq_release (s : ExecState) (b : Blk)
    (hflush : batchWritePeriod ≤ s.processedSinceBatchWrite + 1)
    (hrel : iteratorReleasePeriod ≤ s.processedSinceIteratorRelease + 1) :
    execStepCore s b =
      { s with
        db := s.db.filter (fun x => !((s.batch ++ [b.height]).contains x.height))
        iter := s.db.filter (fun x => !((s.batch ++ [b.height]).contains x.height))
        batch := []
        tree := treeRemove s.tree b.height
        processedSinceBatchWrite := 0
        processedSinceIteratorRelease := 0
        revEvents := Event.release :: Event.flush (s.batch ++ [b.height]) :: s.revEvents } := by
  simp only [execStepCore]
  rw [if_pos hflush]
  simp only [writeBatch]
  try dsimp only
  rw [if_neg (show ¬ (s.processedSinceBatchWrite + 1 = 0) by omega)]
  try dsimp only
  rw [if_pos hrel]
  try dsimp only
  rw [if_pos (rfl : (0 : Nat) = 0)]

/-- `passStepCore` when neither the flush nor the release triggers. -/
theorem passStepCore_eq_basic (st : PassState) (b : Blk)
    (hflush : st.unflushed.length + 1 < batchWritePeriod)
    (hrel : st.psir + 1 < iteratorReleasePeriod) :
    passStepCore st b =
      ⟨st.unflushed ++ [b], st.psir + 1, treeRemove st.tree b.height, st.revEvents⟩ := by
  have h1 : ¬ (batchWritePeriod ≤ (st.unflushed ++ [b]).length) := by simp; omega
  have h2 : ¬ (iteratorReleasePeriod ≤ st.psir + 1) := by omega
  simp only [passStepCore, if_neg h1, if_neg h2]

/-- `passStepCore` when the flush triggers but not the release. -/
theorem passStepCore_eq_flush (st : PassState) (b : Blk)
    (hflush : batchWritePeriod ≤ st.unflushed.length + 1)
    (hrel : st.psir + 1 < iteratorReleasePeriod) :
    passStepCore st b =
      ⟨[], st.psir + 1, treeRemove st.tree b.height,
        Event.flush ((st.unflushed ++ [b]).map (fun x => x.height)) :: st.revEvents⟩ := by
  have h1 : batchWritePeriod ≤ (st.unflushed ++ [b]).length := by simp; omega
  have h2 : ¬ (iteratorReleasePeriod ≤ st.psir + 1) := by omega
  simp only [passStepCore, if_pos h1, if_neg h2]

/-- `passStepCore` when both the flush and the release trigger; the
release-time forced flush is a no-op. -/
theorem passStepCore_eq_release (st : PassState) (b : Blk)
    (hflush : batchWritePeriod ≤ st.unflushed.length + 1)
    (hrel : iteratorReleasePeriod ≤ st.psir + 1) :
    passStepCore st b =
      ⟨[], 0, treeRemove st.tree b.height,
        Event.release ::
          Event.flush ((st.unflushed ++ [b]).map (fun x => x.height)) :: st.revEvents⟩ := by
  have h1 : batchWritePeriod ≤ (st.unflushed ++ [b]).length := by simp; omega
  simp only [passStepCore, if_pos h1, if_pos hrel]
  simp

/-- One `execStepCore` on an `Agree`ing state lands on a state agreeing
with `passStepCore`: in particular the iterator release reacquires
exactly the not-yet-processed blocks, so no block is skipped or
reprocessed. -/
theorem execStepCore_agree (st : PassState) (b : Blk) (rest : List Blk) (s : ExecState)
    (hag : Agree st (b :: rest) s) :
    Agree (passStepCore st b) rest
      (execStepCore { s with checks := s.checks + 1, iter := rest } b) ∧
    (execStepCore { s with checks := s.checks + 1, iter := rest } b).checks = s.checks + 1 := by
  obtain ⟨hiter, hdb, hbatch, hpsbw, hpsir, htree, hrev, halign, hlim, hnd⟩ := hag
  have hnd2 : (((st.unflushed ++ [b]) ++ rest).map (fun x => x.height)).Nodup := by
    rw [show (st.unflushed ++ [b]) ++ rest = st.unflushed ++ b :: rest by simp]
    exact hnd
  have hndrest : ((([] : List Blk) ++ rest).map (fun x => x.height)).Nodup := by
    rw [List.nil_append]
    rw [List.map_append, List.nodup_append] at hnd2
    exact hnd2.2.1
  have hbatch2 : s.batch ++ [b.height] = (st.unflushed ++ [b]).map (fun x => x.height) := by
    rw [hbatch]; simp
  have hdb2 : s.db = (st.unflushed ++ [b]) ++ rest := by rw [hdb]; simp
  by_cases hflush : batchWritePeriod ≤ st.unflushed.length + 1
  · by_cases hrel : iteratorReleasePeriod ≤ st.psir + 1
    · -- flush and release
      have he := execStepCore_eq_release { s with checks := s.checks + 1, iter := rest } b
        (by dsimp only; omega) (by dsimp only; omega)
      rw [he, passStepCore_eq_release st b hflush hrel]
      have hfilter : s.db.filter
          (fun x => !((s.batch ++ [b.height]).contains x.height)) = rest := by
        rw [hdb2, hbatch2]
        exact filter_batch_eq hnd2
      refine ⟨⟨?_, ?_, ?_, ?_, ?_, ?_, ?_, ?_, ?_, ?_⟩, rfl⟩
      · dsimp only; rw [hfilter]
      · dsimp only; rw [hfilter]; simp
      · simp
      · simp
      · simp
      · dsimp only; rw [htree]
      · dsimp only; rw [hbatch2, hrev]
      · simp
      · simp [iteratorReleasePeriod]
      · exact hndrest
    · -- flush only
      have he := execStepCore_eq_flush { s with checks := s.checks + 1, iter := rest } b
        (by dsimp only; omega) (by dsimp only; omega)
      rw [he, passStepCore_eq_flush st b hflush (by omega)]
      have hfilter : s.db.filter
          (fun x => !((s.batch ++ [b.height]).contains x.height)) = rest := by
        rw [hdb2, hbatch2]
        exact filter_batch_eq hnd2
      refine ⟨⟨?_, ?_, ?_, ?_, ?_, ?_, ?_, ?_, ?_, ?_⟩, rfl⟩
      · rfl
      · dsimp only; rw [hfilter]; simp
      · simp
      · simp
      · dsimp only; omega
      · dsimp only; rw [htree]
      · dsimp only; rw [hbatch2, hrev]
      · simp only [List.length_nil, batchWritePeriod] at halign hflush ⊢
        omega
      · dsimp only; omega
      · exact hndrest
  · -- no flush; the release then cannot trigger either, because the
    -- counters stay aligned
    have hrel : ¬ (iteratorReleasePeriod ≤ st.psir + 1) := by
      simp only [batchWritePeriod, iteratorReleasePeriod] at *
      omega
    have he := execStepCore_eq_basic { s with checks := s.checks + 1, iter := rest } b
      (by dsimp only; omega) (by dsimp only; omega)
    rw [he, passStepCore_eq_basic st b (by omega) (by omega)]
    refine ⟨⟨?_, ?_, ?_, ?_, ?_, ?_, ?_, ?_, ?_, ?_⟩, rfl⟩
    · rfl
    · dsimp only; rw [hdb2]
    · dsimp only; rw [hbatch2]
    · dsimp only; simp; omega
    · dsimp only; omega
    · dsimp only; rw [htree]
    · dsimp only; rw [hrev]
    · dsimp only
      simp only [batchWritePeriod, iteratorReleasePeriod] at halign hlim hflush ⊢
      simp only [List.length_append, List.length_cons, List.length_nil]
      omega
    · dsimp only; omega
    · exact hnd2

/-- Unfolding of one `execLoop` iteration on a live, parseable block. -/
theorem execLoop_cons_eq (cfg : ExecCfg) (la : Nat) (b : Blk) (rest : List Blk)
    (s : ExecState) (fuel : Nat)
    (hnc : ctxCancelled cfg s.checks = false)
    (hiter : s.iter = b :: rest)
    (hparse : cfg.parseOk b = true) :
    execLoop cfg la (fuel + 1) s =
      (let sMid := execStepCore { s with checks := s.checks + 1, iter := rest } b
       if b.height ≤ la then execLoop cfg la fuel sMid
       else
         if cfg.verifyOk b then
           if cfg.acceptOk b then
             execLoop cfg la fuel
               { sMid with revEvents := Event.accept b :: Event.verify b :: sMid.revEvents }
           else
             some ({ sMid with
               revEvents := Event.accept b :: Event.verify b :: sMid.revEvents },
               some (ExecErr.acceptErr b))
         else
           some ({ sMid with revEvents := Event.verify b :: sMid.revEvents },
             some (ExecErr.verifyErr b))) := by
  rw [execLoop, hnc, hiter]
  simp only [Bool.false_eq_true, if_false, hparse, if_true]

/-- One clean iteration of `execLoop` follows `passStep`. -/
theorem execLoop_clean_step (cfg : ExecCfg) (la : Nat) (st : PassState) (b : Blk)
    (rest : List Blk) (s : ExecState) (fuel : Nat)
    (hag : Agree st (b :: rest) s)
    (hnc : ctxCancelled cfg s.checks = false)
    (hclean : CleanBlk cfg la b) :
    ∃ s2, execLoop cfg la (fuel + 1) s = execLoop cfg la fuel s2 ∧
      Agree (passStep la st b) rest s2 ∧ s2.checks = s.checks + 1 := by
  obtain ⟨hparse, hva⟩ := hclean
  obtain ⟨hA, hchecks⟩ := execStepCore_agree st b rest s hag
  rw [execLoop_cons_eq cfg la b rest s fuel hnc hag.1 hparse]
  obtain ⟨a1, a2, a3, a4, a5, a6, a7, a8, a9, a10⟩ := hA
  by_cases hh : b.height ≤ la
  · refine ⟨execStepCore { s with checks := s.checks + 1, iter := rest } b,
      by simp only [if_pos hh], ⟨a1, a2, a3, a4, a5, a6, ?_, a8, a9, a10⟩, hchecks⟩
    simp only [passStep, if_pos hh]
    exact a7
  · obtain ⟨hverify, haccept⟩ := hva (by omega)
    refine ⟨{ execStepCore { s with checks := s.checks + 1, iter := rest } b with
        revEvents := Event.accept b :: Event.verify b ::
          (execStepCore { s with checks := s.checks + 1, iter := rest } b).revEvents },
      ?_, ⟨a1, a2, a3, a4, a5, a6, ?_, a8, a9, a10⟩, hchecks⟩
    · simp only [if_neg hh, hverify, haccept, if_true]
    · simp only [passStep, if_neg hh]
      try dsimp only
      rw [a7]

/-- `execLoop` runs through a clean prefix exactly as `passRun` does. -/
theorem execLoop_clean_prefix (cfg : ExecCfg) (la : Nat) :
    ∀ (pre rest : List Blk) (st : PassState) (s : ExecState) (fuel : Nat),
      Agree st (pre ++ rest) s →
      (∀ b ∈ pre, CleanBlk cfg la b) →
      (∀ k, s.checks ≤ k → k < s.checks + pre.length → ctxCancelled cfg k = false) →
      ∃ s2, execLoop cfg la (pre.length + fuel) s = execLoop cfg la fuel s2 ∧
        Agree (passRun la st pre) rest s2 ∧ s2.checks = s.checks + pre.length := by
  intro pre
  induction pre with
  | nil =>
    intro rest st s fuel hag _ _
    exact ⟨s, by simp, hag, rfl⟩
  | cons b pre ih =>
    intro rest st s fuel hag hclean hnc
    have hncb : ctxCancelled cfg s.checks = false :=
      hnc s.checks (Nat.le_refl _) (by simp)
    obtain ⟨s2, heq, hag2, hch⟩ := execLoop_clean_step cfg la st b (pre ++ rest) s
      (pre.length + fuel) (by simpa using hag) hncb (hclean b (by simp))
    obtain ⟨s3, heq3, hag3, hch3⟩ := ih rest (passStep la st b) s2 fuel hag2
      (fun x hx => hclean x (by simp [hx]))
      (fun k hk1 hk2 => hnc k (by omega) (by simp at hk2 ⊢; omega))
    refine ⟨s3, ?_, hag3, by simp only [List.length_cons]; omega⟩
    have hl : (b :: pre).length + fuel = (pre.length + fuel) + 1 := by
      simp [List.length_cons]; omega
    rw [hl, heq, heq3]

/-- `execLoop` on an exhausted iterator: post-loop finish. -/
theorem execLoop_exit_empty (cfg : ExecCfg) (la : Nat) (s : ExecState) (fuel : Nat)
    (hiter : s.iter = []) :
    execLoop cfg la (fuel + 1) s =
      some (execFinish cfg { s with checks := s.checks + 1 }) := by
  rw [execLoop, hiter]
  by_cases hnc : ctxCancelled cfg s.checks = true
  · rw [if_pos hnc]
  · simp only [Bool.not_eq_true] at hnc
    rw [hnc]
    simp

/-- `execLoop` when the guard observes cancellation: post-loop finish
without touching the iterator. -/
theorem execLoop_exit_cancel (cfg : ExecCfg) (la : Nat) (s : ExecState) (fuel : Nat)
    (hc : ctxCancelled cfg s.checks = true) :
    execLoop cfg la (fuel + 1) s =
      some (execFinish cfg { s with checks := s.checks + 1 }) := by
  rw [execLoop, hc]
  simp

/-- The post-loop finish on an agreeing state: the final batch write
persists every queued deletion, leaving exactly the unprocessed blocks in
the store, and the result is the current value of the ambient
cancellation signal. -/
theorem execFinish_agree (cfg : ExecCfg) (st : PassState) (rem : List Blk) (s : ExecState)
    (hag : Agree st rem s) :
    execFinish cfg s =
      ({ db := rem, iter := rem, batch := [], tree := st.tree
         processedSinceBatchWrite := 0
         processedSinceIteratorRelease := st.psir
         checks := s.checks + 1
         revEvents :=
           if st.unflushed.length = 0 then st.revEvents
           else Event.flush (st.unflushed.map (fun x => x.height)) :: st.revEvents },
       if ctxCancelled cfg s.checks then some ExecErr.cancelled else none) := by
  obtain ⟨hiter, hdb, hbatch, hpsbw, hpsir, htree, hrev, halign, hlim, hnd⟩ := hag
  by_cases h0 : st.unflushed.length = 0
  · have hu : st.unflushed = [] := List.length_eq_zero.1 h0
    have hdbr : s.db = rem := by rw [hdb, hu, List.nil_append]
    have hbat : s.batch = [] := by rw [hbatch, hu]; rfl
    have hpsbw0 : s.processedSinceBatchWrite = 0 := by rw [hpsbw, h0]
    have e1 : writeBatch s = s := by
      simp only [writeBatch, hpsbw0]
      simp
    simp only [execFinish, e1, if_pos h0]
    rw [hdbr, hiter, htree, hpsir, hrev, hbat, hpsbw0]
  · have hfilter : s.db.filter (fun x => !(s.batch.contains x.height)) = rem := by
      rw [hdb, hbatch]
      exact filter_batch_eq hnd
    have e1 : writeBatch s =
        { db := rem, iter := rem, batch := [], tree := st.tree
          processedSinceBatchWrite := 0
          processedSinceIteratorRelease := st.psir
          checks := s.checks
          revEvents :=
            Event.flush (st.unflushed.map (fun x => x.height)) :: st.revEvents } := by
      simp only [writeBatch, hpsbw, if_neg h0]
      rw [hfilter, hbatch, hrev, hiter, htree, hpsir]
    simp only [execFinish, e1, if_neg h0]

/-- The specification state after a full run from the initial state. -/
def finalPass (la : Nat) (tree : List Ival) (blks : List Blk) : PassState :=
  passRun la ⟨[], 0, tree, []⟩ blks

/-- Master lemma: a run of `execute` in which every block is clean and no
cancellation is observed during the loop drains the whole store, one
block per iteration in store order, finishing with one final batch write;
the resulting state is described exactly by `passRun` plus the final
flush. -/
theorem execute_clean_run (cfg : ExecCfg) (la : Nat) (blks : List Blk) (tree : List Ival)
    (hnd : (blks.map (fun b => b.height)).Nodup)
    (hclean : ∀ b ∈ blks, CleanBlk cfg la b)
    (hnc : ∀ k, k < blks.length + 1 → ctxCancelled cfg k = false) :
    execute cfg la blks tree =
      some ({ db := [], iter := [], batch := []
              tree := (finalPass la tree blks).tree
              processedSinceBatchWrite := 0
              processedSinceIteratorRelease := (finalPass la tree blks).psir
              checks := blks.length + 2
              revEvents :=
                if (finalPass la tree blks).unflushed.length = 0 then
                  (finalPass la tree blks).revEvents
                else
                  Event.flush ((finalPass la tree blks).unflushed.map (fun x => x.height))
                    :: (finalPass la tree blks).revEvents },
        if ctxCancelled cfg (blks.length + 1) then some ExecErr.cancelled else none) := by
  have hag0 : Agree ⟨[], 0, tree, []⟩ (blks ++ [])
      { db := blks, iter := blks, batch := [], tree := tree,
        processedSinceBatchWrite := 0, processedSinceIteratorRelease := 0,
        checks := 0, revEvents := [] } := by
    refine ⟨by simp, by simp, rfl, rfl, rfl, rfl, rfl, by simp [batchWritePeriod], ?_, by simpa⟩
    simp [iteratorReleasePeriod]
  obtain ⟨s2, heq, hag2, hch⟩ := execLoop_clean_prefix cfg la blks [] ⟨[], 0, tree, []⟩ _ 1
    hag0 hclean (fun k hk1 hk2 => hnc k (by simp at hk2; omega))
  have hiter2 : s2.iter = [] := hag2.1
  have hfin := execFinish_agree cfg (passRun la ⟨[], 0, tree, []⟩ blks) []
    { s2 with checks := s2.checks + 1 } hag2
  unfold execute
  rw [show blks.length + 1 = blks.length + 1 from rfl, heq,
    execLoop_exit_empty cfg la s2 0 hiter2, hfin]
  simp only [hch, finalPass, Nat.zero_add]

/-- Batch-write events. -/
def isFlush : Event → Bool
  | Event.flush _ => true
  | _ => false

theorem passStepCore_filter_va (st : PassState) (b : Blk) :
    (passStepCore st b).revEvents.filter isVA = st.revEvents.filter isVA := by
  unfold passStepCore
  dsimp only
  by_cases hf : batchWritePeriod ≤ st.unflushed.length + 1 <;>
    by_cases hr : iteratorReleasePeriod ≤ st.psir + 1 <;>
      simp [hf, hr, isVA]

theorem passStep_filter_va (la : Nat) (st : PassState) (b : Blk) :
    (passStep la st b).revEvents.filter isVA =
      (if b.height ≤ la then [] else [Event.accept b, Event.verify b]) ++
        st.revEvents.filter isVA := by
  unfold passStep
  dsimp only
  by_cases hh : b.height ≤ la
  · simp only [if_pos hh, passStepCore_filter_va, List.nil_append]
  · simp only [if_neg hh]
    rw [List.filter_cons, List.filter_cons]
    simp [isVA, passStepCore_filter_va]

theorem passRun_filter_va (la : Nat) :
    ∀ (blks : List Blk) (st : PassState),
      (passRun la st blks).revEvents.filter isVA =
        (blks.flatMap (fun b => if b.height ≤ la then []
          else [Event.verify b, Event.accept b])).reverse ++ st.revEvents.filter isVA := by
  intro blks
  induction blks with
  | nil => intro st; simp [passRun]
  | cons b bs ih =>
    intro st
    show (passRun la (passStep la st b) bs).revEvents.filter isVA = _
    rw [ih, passStep_filter_va]
    by_cases hh : b.height ≤ la <;> simp [hh]

theorem passStep_tree (la : Nat) (st : PassState) (b : Blk) :
    (passStep la st b).tree = treeRemove st.tree b.height := by
  simp [passStep, passStepCore]

theorem passRun_tree (la : Nat) :
    ∀ (blks : List Blk) (st : PassState),
      (passRun la st blks).tree =
        blks.foldl (fun t b => treeRemove t b.height) st.tree := by
  intro blks
  induction blks with
  | nil => intro st; rfl
  | cons b bs ih =>
    intro st
    show (passRun la (passStep la st b) bs).tree = _
    rw [ih, passStep_tree]
    rfl

theorem flushedOf_append (l1 l2 : List Event) :
    flushedOf (l1 ++ l2) = flushedOf l1 ++ flushedOf l2 := by
  simp [flushedOf]

theorem passStep_flushed (la : Nat) (st : PassState) (b : Blk) :
    flushedOf (passStep la st b).revEvents.reverse ++
      (passStep la st b).unflushed.map (fun x => x.height) =
    flushedOf st.revEvents.reverse ++ st.unflushed.map (fun x => x.height) ++ [b.height] := by
  unfold passStep passStepCore
  dsimp only
  by_cases hh : b.height ≤ la <;>
    by_cases hf : batchWritePeriod ≤ st.unflushed.length + 1 <;>
      by_cases hr : iteratorReleasePeriod ≤ st.psir + 1 <;>
        simp [hh, hf, hr, flushedOf_append, flushedOf, isVA]

theorem passRun_flushed (la : Nat) :
    ∀ (blks : List Blk) (st : PassState),
      flushedOf (passRun la st blks).revEvents.reverse ++
        (passRun la st blks).unflushed.map (fun x => x.height) =
      flushedOf st.revEvents.reverse ++ st.unflushed.map (fun x => x.height) ++
        blks.map (fun x => x.height) := by
  intro blks
  induction blks with
  | nil => intro st; simp [passRun]
  | cons b bs ih =>
    intro st
    show flushedOf (passRun la (passStep la st b) bs).revEvents.reverse ++
        (passRun la (passStep la st b) bs).unflushed.map (fun x => x.height) = _
    rw [ih, passStep_flushed]
    simp

theorem passStep_arith (la : Nat) (st : PassState) (b : Blk)
    (halign : st.unflushed.length = st.psir % batchWritePeriod)
    (hlim : st.psir < iteratorReleasePeriod) :
    (passStep la st b).unflushed.length = (st.psir + 1) % batchWritePeriod ∧
    (passStep la st b).psir = (st.psir + 1) % iteratorReleasePeriod ∧
    (passStep la st b).revEvents.count Event.release =
      st.revEvents.count Event.release + (st.psir + 1) / iteratorReleasePeriod ∧
    (passStep la st b).revEvents.countP isFlush =
      st.revEvents.countP isFlush + (st.psir % batchWritePeriod + 1) / batchWritePeriod := by
  simp only [batchWritePeriod, iteratorReleasePeriod] at halign hlim ⊢
  by_cases hflush : batchWritePeriod ≤ st.unflushed.length + 1
  · by_cases hrel : iteratorReleasePeriod ≤ st.psir + 1
    · have hc := passStepCore_eq_release st b hflush hrel
      simp only [batchWritePeriod, iteratorReleasePeriod] at hflush hrel
      unfold passStep
      rw [hc]
      by_cases hh : b.height ≤ la <;>
        simp [hh, List.count_cons, List.countP_cons, isFlush] <;> omega
    · have hc := passStepCore_eq_flush st b hflush (by omega)
      simp only [batchWritePeriod, iteratorReleasePeriod] at hflush hrel
      unfold passStep
      rw [hc]
      by_cases hh : b.height ≤ la <;>
        simp [hh, List.count_cons, List.countP_cons, isFlush] <;> omega
  · have hrel : ¬ (iteratorReleasePeriod ≤ st.psir + 1) := by
      simp only [batchWritePeriod, iteratorReleasePeriod] at *
      omega
    have hc := passStepCore_eq_basic st b (by omega) (by omega)
    simp only [batchWritePeriod, iteratorReleasePeriod] at hflush hrel
    unfold passStep
    rw [hc]
    by_cases hh : b.height ≤ la <;>
      simp [hh, List.count_cons, List.countP_cons, isFlush] <;> omega

theorem passRun_arith (la : Nat) :
    ∀ (blks : List Blk) (st : PassState),
      st.unflushed.length = st.psir % batchWritePeriod →
      st.psir < iteratorReleasePeriod →
      (passRun la st blks).unflushed.length =
          (st.psir + blks.length) % batchWritePeriod ∧
      (passRun la st blks).psir = (st.psir + blks.length) % iteratorReleasePeriod ∧
      (passRun la st blks).revEvents.count Event.release =
        st.revEvents.count Event.release +
          (st.psir + blks.length) / iteratorReleasePeriod ∧
      (passRun la st blks).revEvents.countP isFlush =
        st.revEvents.countP isFlush +
          (st.psir % batchWritePeriod + blks.length) / batchWritePeriod := by
  intro blks
  induction blks with
  | nil =>
    intro st halign hlim
    simp only [passRun, List.foldl_nil, List.length_nil, Nat.add_zero]
    simp only [batchWritePeriod, iteratorReleasePeriod] at halign hlim ⊢
    refine ⟨by omega, by omega, by omega, by omega⟩
  | cons b bs ih =>
    intro st halign hlim
    obtain ⟨e1, e2, e3, e4⟩ := passStep_arith la st b halign hlim
    have halign2 : (passStep la st b).unflushed.length =
        (passStep la st b).psir % batchWritePeriod := by
      rw [e1, e2]
      simp only [batchWritePeriod, iteratorReleasePeriod]
      omega
    have hlim2 : (passStep la st b).psir < iteratorReleasePeriod := by
      rw [e2]
      simp only [iteratorReleasePeriod]
      omega
    obtain ⟨f1, f2, f3, f4⟩ := ih (passStep la st b) halign2 hlim2
    have hrun : passRun la st (b :: bs) = passRun la (passStep la st b) bs := rfl
    rw [hrun]
    simp only [List.length_cons]
    simp only [batchWritePeriod,
      iteratorReleasePeriod] at e1 e2 e3 e4 f1 f2 f3 f4 hlim ⊢
    refine ⟨by rw [f1, e2]; omega, by rw [f2, e2]; omega,
      by rw [f3, e3, e2]; omega, by rw [f4, e4, e2]; omega⟩

theorem removeFromIval_not_covers (i : Ival) (h : Nat) :
    ∀ j ∈ removeFromIval i h, j.covers h = false := by
  intro j hj
  unfold removeFromIval at hj
  by_cases hout : h < i.lowerBound ∨ i.upperBound < h
  · rw [if_pos hout] at hj
    simp only [List.mem_singleton] at hj
    subst hj
    simp only [Ival.covers, Bool.and_eq_false_iff, decide_eq_false_iff_not]
    omega
  · rw [if_neg hout] at hj
    push_neg at hout
    rcases List.mem_append.1 hj with hj1 | hj1
    · by_cases hlb : i.lowerBound < h
      · rw [if_pos hlb] at hj1
        simp only [List.mem_singleton] at hj1
        subst hj1
        simp only [Ival.covers, Bool.and_eq_false_iff, decide_eq_false_iff_not]
        omega
      · rw [if_neg hlb] at hj1
        simp at hj1
    · by_cases hub : h < i.upperBound
      · rw [if_pos hub] at hj1
        simp only [List.mem_singleton] at hj1
        subst hj1
        simp only [Ival.covers, Bool.and_eq_false_iff, decide_eq_false_iff_not]
        omega
      · rw [if_neg hub] at hj1
        simp at hj1

theorem removeFromIval_sub (i : Ival) (h : Nat) {j : Ival} (hj : j ∈ removeFromIval i h)
    {x : Nat} (hx : j.covers x = true) : i.covers x = true := by
  unfold removeFromIval at hj
  simp only [Ival.covers, Bool.and_eq_true, decide_eq_true_eq] at hx ⊢
  by_cases hout : h < i.lowerBound ∨ i.upperBound < h
  · rw [if_pos hout] at hj
    simp only [List.mem_singleton] at hj
    subst hj
    exact hx
  · rw [if_neg hout] at hj
    push_neg at hout
    rcases List.mem_append.1 hj with hj1 | hj1 <;> by_cases hc : i.lowerBound < h
    · rw [if_pos hc] at hj1
      simp only [List.mem_singleton] at hj1
      subst hj1
      simp at hx
      omega
    · rw [if_neg hc] at hj1; simp at hj1
    all_goals {
      by_cases hc2 : h < i.upperBound
      · rw [if_pos hc2] at hj1
        simp only [List.mem_singleton] at hj1
        subst hj1
        simp at hx
        omega
      · rw [if_neg hc2] at hj1; simp at hj1 }

theorem tracked_treeRemove_self (t : List Ival) (h : Nat) :
    tracked (treeRemove t h) h = false := by
  unfold tracked treeRemove
  rw [List.any_eq_false]
  intro j hj
  rcases List.mem_flatMap.1 hj with ⟨i, _, hji⟩
  simp [removeFromIval_not_covers i h j hji]

theorem tracked_treeRemove_mono (t : List Ival) (h x : Nat)
    (hx : tracked t x = false) : tracked (treeRemove t h) x = false := by
  unfold tracked treeRemove at *
  rw [List.any_eq_false] at hx ⊢
  intro j hj
  rcases List.mem_flatMap.1 hj with ⟨i, hi, hji⟩
  intro hcov
  exact hx i hi (removeFromIval_sub i h hji hcov)

theorem tracked_foldl_mono (l : List Nat) : ∀ (t : List Ival) (x : Nat),
    tracked t x = false → tracked (l.foldl treeRemove t) x = false := by
  induction l with
  | nil => intro t x hx; exact hx
  | cons a rest ih =>
    intro t x hx
    exact ih (treeRemove t a) x (tracked_treeRemove_mono t a x hx)

theorem tracked_foldl_mem (l : List Nat) : ∀ (t : List Ival) (x : Nat),
    x ∈ l → tracked (l.foldl treeRemove t) x = false := by
  induction l with
  | nil => intro t x hx; cases hx
  | cons a rest ih =>
    intro t x hx
    rcases List.mem_cons.1 hx with h1 | h1
    · subst h1
      exact tracked_foldl_mono rest (treeRemove t x) x (tracked_treeRemove_self t x)
    · exact ih (treeRemove t a) x h1

theorem flatMap_va_all_high (la : Nat) : ∀ (l : List Blk), (∀ b ∈ l, la < b.height) →
    l.flatMap (fun b => if b.height ≤ la then [] else [Event.verify b, Event.accept b]) =
      l.flatMap (fun b => [Event.verify b, Event.accept b]) := by
  intro l
  induction l with
  | nil => intro _; rfl
  | cons b bs ih =>
    intro hhigh
    simp only [List.flatMap_cons]
    rw [if_neg (by have := hhigh b (by simp); omega), ih (fun x hx => hhigh x (by simp [hx]))]

theorem length_flatMap_pairs : ∀ (l : List Blk),
    (l.flatMap (fun b => [Event.verify b, Event.accept b])).length = 2 * l.length := by
  intro l
  induction l with
  | nil => rfl
  | cons b bs ih => simp [List.flatMap_cons, ih]; omega

/-- The canonical environment with no failures and no cancellation. -/
def allCfg : ExecCfg := ⟨fun _ => true, fun _ => true, fun _ => true, none⟩

/-- C1: with `lastAcceptedHeight = H`, a store holding exactly blocks at
heights `H+1 .. H+K` in ascending order and the tree covering exactly
those heights, an uncancelled, error-free `execute` calls `Verify` then
`Accept` on exactly the K blocks in strictly ascending height order
(the verify/accept subtrace is one verify-accept pair per stored block,
in store order, whose heights are strictly increasing), and on return the
tree tracks no heights and the pending store is empty. -/
theorem execute_full_cover (cfg : ExecCfg) (H K : Nat) (blks : List Blk) (t : List Ival)
    (hcan : cfg.cancelAt = none)
    (hh : blks.map (fun b => b.height) = List.range' (H + 1) K)
    (ht : t = if K = 0 then [] else [⟨H + 1, H + K⟩])
    (hclean : ∀ b ∈ blks,
      cfg.parseOk b = true ∧ cfg.verifyOk b = true ∧ cfg.acceptOk b = true) :
    ∃ s, execute cfg H blks t = some (s, none) ∧
      vaTrace s.events = blks.flatMap (fun b => [Event.verify b, Event.accept b]) ∧
      (vaTrace s.events).length = 2 * K ∧
      (blks.map (fun b => b.height)).Pairwise (· < ·) ∧
      (∀ x, tracked s.tree x = false) ∧
      s.db = [] := by
  have hcanf : ∀ k, ctxCancelled cfg k = false := by
    intro k
    simp [ctxCancelled, hcan]
  have hnd : (blks.map (fun b => b.height)).Nodup := by
    rw [hh]
    exact (List.pairwise_lt_range' _ _).imp Nat.ne_of_lt
  have hhigh : ∀ b ∈ blks, H < b.height := by
    intro b hb
    have : b.height ∈ List.range' (H + 1) K := by
      rw [← hh]
      exact List.mem_map_of_mem _ hb
    have := List.mem_range'_1.1 this
    omega
  have hclean2 : ∀ b ∈ blks, CleanBlk cfg H b := by
    intro b hb
    exact ⟨(hclean b hb).1, fun _ => ⟨(hclean b hb).2.1, (hclean b hb).2.2⟩⟩
  have hmaster := execute_clean_run cfg H blks t hnd hclean2 (fun k _ => hcanf k)
  simp only [hcanf, Bool.false_eq_true, if_false] at hmaster
  have hvt : vaTrace (ExecState.events
      { db := [], iter := [], batch := [], tree := (finalPass H t blks).tree,
        processedSinceBatchWrite := 0,
        processedSinceIteratorRelease := (finalPass H t blks).psir,
        checks := blks.length + 2,
        revEvents := if (finalPass H t blks).unflushed.length = 0
          then (finalPass H t blks).revEvents
          else Event.flush ((finalPass H t blks).unflushed.map (fun x => x.height))
            :: (finalPass H t blks).revEvents }) =
      blks.flatMap (fun b => [Event.verify b, Event.accept b]) := by
    unfold ExecState.events vaTrace
    dsimp only
    rw [List.filter_reverse]
    have hfl : ∀ (l : List Event) (hs : List Nat),
        (Event.flush hs :: l).filter isVA = l.filter isVA := by
      intro l hs
      rw [List.filter_cons]
      simp [isVA]
    have hva := passRun_filter_va H blks ⟨[], 0, t, []⟩
    by_cases h0 : (finalPass H t blks).unflushed.length = 0
    · simp only [if_pos h0]
      rw [show (finalPass H t blks).revEvents.filter isVA =
            (passRun H ⟨[], 0, t, []⟩ blks).revEvents.filter isVA from rfl, hva]
      simp [flatMap_va_all_high H blks hhigh]
    · simp only [if_neg h0, hfl]
      rw [show (finalPass H t blks).revEvents.filter isVA =
            (passRun H ⟨[], 0, t, []⟩ blks).revEvents.filter isVA from rfl, hva]
      simp [flatMap_va_all_high H blks hhigh]
  have hKlen : blks.length = K := by
    have := congrArg List.length hh
    simpa using this
  refine ⟨_, hmaster, hvt, ?_, ?_, ?_, rfl⟩
  · rw [hvt, length_flatMap_pairs, hKlen]
  · rw [hh]
    exact List.pairwise_lt_range' _ _
  · show ∀ x, tracked (finalPass H t blks).tree x = false
    intro x
    rw [finalPass, passRun_tree]
    have hfold : blks.foldl (fun acc b => treeRemove acc b.height) t =
        (blks.map (fun b => b.height)).foldl treeRemove t := by
      rw [List.foldl_map]
    rw [hfold, hh]
    by_cases hx : x ∈ List.range' (H + 1) K
    · exact tracked_foldl_mem _ t x hx
    · refine tracked_foldl_mono _ t x ?_
      subst ht
      by_cases hK : K = 0
      · simp [hK, tracked]
      · rw [if_neg hK]
        simp only [tracked, List.any_eq_false]
        intro i hi
        simp only [List.mem_singleton] at hi
        subst hi
        rw [List.mem_range'_1] at hx
        simp only [Ival.covers, Bool.and_eq_true, decide_eq_true_eq, not_and]
        omega

/-- Witness for C1 at `H = 2`, `K = 3`: blocks at heights 3, 4, 5. -/
theorem execute_full_cover_witness :
    (allCfg.cancelAt = none) ∧
    ([(⟨11, 10, 3⟩ : Blk), ⟨12, 11, 4⟩, ⟨13, 12, 5⟩].map (fun b => b.height) =
      List.range' (2 + 1) 3) ∧
    ∃ s, execute allCfg 2 [⟨11, 10, 3⟩, ⟨12, 11, 4⟩, ⟨13, 12, 5⟩] [⟨3, 5⟩] = some (s, none) ∧
      vaTrace s.events =
        [(⟨11, 10, 3⟩ : Blk), ⟨12, 11, 4⟩, ⟨13, 12, 5⟩].flatMap
          (fun b => [Event.verify b, Event.accept b]) ∧
      (vaTrace s.events).length = 2 * 3 ∧
      ([(⟨11, 10, 3⟩ : Blk), ⟨12, 11, 4⟩, ⟨13, 12, 5⟩].map (fun b => b.height)).Pairwise
        (· < ·) ∧
      (∀ x, tracked s.tree x = false) ∧
      s.db = [] :=
  ⟨rfl, by decide,
    execute_full_cover allCfg 2 3 [⟨11, 10, 3⟩, ⟨12, 11, 4⟩, ⟨13, 12, 5⟩] [⟨3, 5⟩]
      rfl (by decide) (by decide) (by decide)⟩

/-- The verify/accept subtrace of a finished clean run: one verify-accept
pair per block above the accepted height, in store order. -/
theorem finalEvents_va (la : Nat) (t : List Ival) (blks : List Blk) :
    vaTrace ((if (finalPass la t blks).unflushed.length = 0
        then (finalPass la t blks).revEvents
        else Event.flush ((finalPass la t blks).unflushed.map (fun x => x.height))
          :: (finalPass la t blks).revEvents).reverse) =
      blks.flatMap
        (fun b => if b.height ≤ la then [] else [Event.verify b, Event.accept b]) := by
  unfold vaTrace
  rw [List.filter_reverse]
  have hfl : ∀ (l : List Event) (hs : List Nat),
      (Event.flush hs :: l).filter isVA = l.filter isVA := by
    intro l hs
    rw [List.filter_cons]
    simp [isVA]
  have hva := passRun_filter_va la blks ⟨[], 0, t, []⟩
  by_cases h0 : (finalPass la t blks).unflushed.length = 0
  · rw [if_pos h0]
    rw [show (finalPass la t blks).revEvents.filter isVA =
          (passRun la ⟨[], 0, t, []⟩ blks).revEvents.filter isVA from rfl, hva]
    simp
  · rw [if_neg h0, hfl]
    rw [show (finalPass la t blks).revEvents.filter isVA =
          (passRun la ⟨[], 0, t, []⟩ blks).revEvents.filter isVA from rfl, hva]
    simp

/-- The batch writes of a finished clean run delete exactly the processed
heights, in processing order. -/
theorem finalEvents_flushed (la : Nat) (t : List Ival) (blks : List Blk) :
    flushedOf ((if (finalPass la t blks).unflushed.length = 0
        then (finalPass la t blks).revEvents
        else Event.flush ((finalPass la t blks).unflushed.map (fun x => x.height))
          :: (finalPass la t blks).revEvents).reverse) =
      blks.map (fun b => b.height) := by
  have hfl := passRun_flushed la blks ⟨[], 0, t, []⟩
  simp only [show (⟨[], 0, t, []⟩ : PassState).revEvents = [] from rfl,
    show (⟨[], 0, t, []⟩ : PassState).unflushed = [] from rfl] at hfl
  simp only [List.reverse_nil, List.map_nil, List.append_nil, List.nil_append] at hfl
  by_cases h0 : (finalPass la t blks).unflushed.length = 0
  · rw [if_pos h0]
    have hu : (finalPass la t blks).unflushed = [] := List.length_eq_zero.1 h0
    rw [show (finalPass la t blks).revEvents =
        (passRun la ⟨[], 0, t, []⟩ blks).revEvents from rfl]
    rw [show (finalPass la t blks).unflushed =
        (passRun la ⟨[], 0, t, []⟩ blks).unflushed from rfl] at hu
    rw [hu] at hfl
    simpa using hfl
  · rw [if_neg h0]
    rw [show (finalPass la t blks).revEvents =
        (passRun la ⟨[], 0, t, []⟩ blks).revEvents from rfl]
    rw [show (finalPass la t blks).unflushed =
        (passRun la ⟨[], 0, t, []⟩ blks).unflushed from rfl]
    rw [List.reverse_cons, flushedOf_append]
    rw [show flushedOf [Event.flush
        ((passRun la ⟨[], 0, t, []⟩ blks).unflushed.map (fun x => x.height))] =
        (passRun la ⟨[], 0, t, []⟩ blks).unflushed.map (fun x => x.height) by
      simp [flushedOf]]
    exact hfl

/-- C7: in a clean, uncancelled run over a store that may contain stale
blocks (height at or below `lastAcceptedHeight`), stale blocks are
neither verified nor accepted, yet their heights are still removed from
the tree and their store entries still deleted through the batch. -/
theorem execute_skips_stale (cfg : ExecCfg) (la : Nat) (blks : List Blk) (t : List Ival)
    (hcan : cfg.cancelAt = none)
    (hnd : (blks.map (fun b => b.height)).Nodup)
    (hclean : ∀ b ∈ blks, CleanBlk cfg la b) :
    ∃ s, execute cfg la blks t = some (s, none) ∧
      vaTrace s.events = blks.flatMap
        (fun b => if b.height ≤ la then [] else [Event.verify b, Event.accept b]) ∧
      flushedOf s.events = blks.map (fun b => b.height) ∧
      s.db = [] ∧
      ∀ b ∈ blks, b.height ≤ la →
        Event.verify b ∉ vaTrace s.events ∧
        Event.accept b ∉ vaTrace s.events ∧
        b.height ∈ flushedOf s.events ∧
        tracked s.tree b.height = false := by
  have hcanf : ∀ k, ctxCancelled cfg k = false := by
    intro k
    simp [ctxCancelled, hcan]
  have hmaster := execute_clean_run cfg la blks t hnd hclean (fun k _ => hcanf k)
  simp only [hcanf, Bool.false_eq_true, if_false] at hmaster
  have hvt := finalEvents_va la t blks
  have hfd := finalEvents_flushed la t blks
  refine ⟨_, hmaster, hvt, hfd, rfl, ?_⟩
  intro b hb hble
  simp only [ExecState.events]
  refine ⟨?_, ?_, ?_, ?_⟩
  · rw [hvt]
    intro hmem
    rcases List.mem_flatMap.1 hmem with ⟨b2, hb2, hin⟩
    by_cases h2 : b2.height ≤ la
    · rw [if_pos h2] at hin
      cases hin
    · rw [if_neg h2] at hin
      rcases List.mem_cons.1 hin with h3 | h3
      · cases h3
        omega
      · rcases List.mem_cons.1 h3 with h4 | h4
        · cases h4
        · cases h4
  · rw [hvt]
    intro hmem
    rcases List.mem_flatMap.1 hmem with ⟨b2, hb2, hin⟩
    by_cases h2 : b2.height ≤ la
    · rw [if_pos h2] at hin
      cases hin
    · rw [if_neg h2] at hin
      rcases List.mem_cons.1 hin with h3 | h3
      · cases h3
      · rcases List.mem_cons.1 h3 with h4 | h4
        · cases h4
          omega
        · cases h4
  · rw [hfd]
    exact List.mem_map_of_mem _ hb
  · show tracked (finalPass la t blks).tree b.height = false
    rw [finalPass, passRun_tree]
    have hfold : blks.foldl (fun acc x => treeRemove acc x.height) t =
        (blks.map (fun x => x.height)).foldl treeRemove t := by
      rw [List.foldl_map]
    rw [hfold]
    exact tracked_foldl_mem _ t b.height (List.mem_map_of_mem _ hb)

/-- Witness for C7: store with a stale block at height 2 and live blocks
at heights 4 and 5, `lastAcceptedHeight = 3`. -/
theorem execute_skips_stale_witness :
    (allCfg.cancelAt = none) ∧
    (([(⟨20, 10, 2⟩ : Blk), ⟨40, 30, 4⟩, ⟨50, 40, 5⟩].map (fun b => b.height)).Nodup) ∧
    ∃ s, execute allCfg 3 [⟨20, 10, 2⟩, ⟨40, 30, 4⟩, ⟨50, 40, 5⟩] [⟨4, 5⟩] = some (s, none) ∧
      vaTrace s.events = [(⟨20, 10, 2⟩ : Blk), ⟨40, 30, 4⟩, ⟨50, 40, 5⟩].flatMap
        (fun b => if b.height ≤ 3 then [] else [Event.verify b, Event.accept b]) ∧
      flushedOf s.events =
        [(⟨20, 10, 2⟩ : Blk), ⟨40, 30, 4⟩, ⟨50, 40, 5⟩].map (fun b => b.height) ∧
      s.db = [] ∧
      ∀ b ∈ [(⟨20, 10, 2⟩ : Blk), ⟨40, 30, 4⟩, ⟨50, 40, 5⟩], b.height ≤ 3 →
        Event.verify b ∉ vaTrace s.events ∧
        Event.accept b ∉ vaTrace s.events ∧
        b.height ∈ flushedOf s.events ∧
        tracked s.tree b.height = false :=
  ⟨rfl, by decide,
    execute_skips_stale allCfg 3 [⟨20, 10, 2⟩, ⟨40, 30, 4⟩, ⟨50, 40, 5⟩] [⟨4, 5⟩]
      rfl (by decide) (by decide)⟩

/-- C6: with cancellation observed from the m-th context check on
(`m ≤` store size), the loop checks the context once per iteration (m
processing checks, the cancelled guard check, and the post-loop read),
processes exactly the first m blocks, performs one final batch write
persisting every queued deletion, and returns the cancellation signal;
the store then holds exactly the unprocessed blocks, so a clean re-run
verifies and accepts only those. -/
theorem execute_cancelled (cfg : ExecCfg) (la : Nat) (blks : List Blk) (t : List Ival)
    (m : Nat)
    (hcanc : cfg.cancelAt = some m)
    (hm : m ≤ blks.length)
    (hnd : (blks.map (fun b => b.height)).Nodup)
    (hclean : ∀ b ∈ blks, CleanBlk cfg la b) :
    ∃ s, execute cfg la blks t = some (s, some ExecErr.cancelled) ∧
      s.checks = m + 2 ∧
      vaTrace s.events = (blks.take m).flatMap
        (fun b => if b.height ≤ la then [] else [Event.verify b, Event.accept b]) ∧
      flushedOf s.events = (blks.take m).map (fun b => b.height) ∧
      s.db = blks.drop m ∧
      ∀ cfg2 : ExecCfg, cfg2.cancelAt = none → (∀ b ∈ blks, CleanBlk cfg2 la b) →
        ∃ s2, execute cfg2 la s.db s.tree = some (s2, none) ∧
          vaTrace s2.events = (blks.drop m).flatMap
            (fun b => if b.height ≤ la then [] else [Event.verify b, Event.accept b]) := by
  have htl : (blks.take m).length = m := by
    rw [List.length_take]
    omega
  have hag0 : Agree ⟨[], 0, t, []⟩ (blks.take m ++ blks.drop m)
      { db := blks, iter := blks, batch := [], tree := t,
        processedSinceBatchWrite := 0, processedSinceIteratorRelease := 0,
        checks := 0, revEvents := [] } := by
    rw [List.take_append_drop]
    refine ⟨rfl, by simp, rfl, rfl, rfl, rfl, rfl, by simp [batchWritePeriod], ?_, by simpa⟩
    simp [iteratorReleasePeriod]
  obtain ⟨s2, heq, hag2, hch⟩ := execLoop_clean_prefix cfg la (blks.take m) (blks.drop m)
    ⟨[], 0, t, []⟩ _ (blks.length - m + 1) hag0
    (fun b hb => hclean b (List.mem_of_mem_take hb))
    (fun k hk1 hk2 => by
      simp only [ctxCancelled, hcanc]
      simp only [htl] at hk2
      simp at hk1 hk2 ⊢
      omega)
  have hch2 : s2.checks = m := by simp [hch, htl]
  have hcexit : ctxCancelled cfg s2.checks = true := by
    simp [ctxCancelled, hcanc, hch2]
  have hfin := execFinish_agree cfg (passRun la ⟨[], 0, t, []⟩ (blks.take m)) (blks.drop m)
    { s2 with checks := s2.checks + 1 } hag2
  have hres : ctxCancelled cfg (s2.checks + 1) = true := by
    simp [ctxCancelled, hcanc, hch2]
  unfold execute
  have hfuel : blks.length + 1 = (blks.take m).length + (blks.length - m + 1) := by
    rw [htl]
    omega
  rw [hfuel, heq, execLoop_exit_cancel cfg la s2 (blks.length - m) hcexit, hfin]
  rw [show ({ s2 with checks := s2.checks + 1 } : ExecState).checks = s2.checks + 1 from rfl]
  rw [hres]
  have hvt := finalEvents_va la t (blks.take m)
  have hfd := finalEvents_flushed la t (blks.take m)
  refine ⟨_, rfl, by simp [hch2], hvt, hfd, rfl, ?_⟩
  intro cfg2 hcan2 hclean2
  have hcanf2 : ∀ k, ctxCancelled cfg2 k = false := by
    intro k
    simp [ctxCancelled, hcan2]
  have hnd2 : ((blks.drop m).map (fun b => b.height)).Nodup := by
    rw [List.map_drop]
    exact hnd.sublist (List.drop_sublist _ _)
  have hmaster := execute_clean_run cfg2 la (blks.drop m)
    (finalPass la t (blks.take m)).tree hnd2
    (fun b hb => hclean2 b (List.mem_of_mem_drop hb)) (fun k _ => hcanf2 k)
  simp only [hcanf2, Bool.false_eq_true, if_false] at hmaster
  exact ⟨_, hmaster, finalEvents_va la _ (blks.drop m)⟩

/-- Environment observing cancellation from the m-th context check on. -/
def cancelCfg (m : Nat) : ExecCfg :=
  ⟨fun _ => true, fun _ => true, fun _ => true, some m⟩

/-- Witness for C6: three stored blocks, cancellation from the 2nd check
on, so exactly 2 blocks are processed and one remains pending. -/
theorem execute_cancelled_witness :
    ((cancelCfg 2).cancelAt = some 2) ∧
    (2 ≤ ([(⟨1, 0, 1⟩ : Blk), ⟨2, 1, 2⟩, ⟨3, 2, 3⟩]).length) ∧
    ∃ s, execute (cancelCfg 2) 0 [⟨1, 0, 1⟩, ⟨2, 1, 2⟩, ⟨3, 2, 3⟩] [⟨1, 3⟩]
        = some (s, some ExecErr.cancelled) ∧
      s.checks = 2 + 2 ∧
      vaTrace s.events = ([(⟨1, 0, 1⟩ : Blk), ⟨2, 1, 2⟩, ⟨3, 2, 3⟩].take 2).flatMap
        (fun b => if b.height ≤ 0 then [] else [Event.verify b, Event.accept b]) ∧
      flushedOf s.events =
        ([(⟨1, 0, 1⟩ : Blk), ⟨2, 1, 2⟩, ⟨3, 2, 3⟩].take 2).map (fun b => b.height) ∧
      s.db = [(⟨1, 0, 1⟩ : Blk), ⟨2, 1, 2⟩, ⟨3, 2, 3⟩].drop 2 ∧
      ∀ cfg2 : ExecCfg, cfg2.cancelAt = none →
        (∀ b ∈ [(⟨1, 0, 1⟩ : Blk), ⟨2, 1, 2⟩, ⟨3, 2, 3⟩], CleanBlk cfg2 0 b) →
        ∃ s2, execute cfg2 0 s.db s.tree = some (s2, none) ∧
          vaTrace s2.events = ([(⟨1, 0, 1⟩ : Blk), ⟨2, 1, 2⟩, ⟨3, 2, 3⟩].drop 2).flatMap
            (fun b => if b.height ≤ 0 then [] else [Event.verify b, Event.accept b]) :=
  ⟨rfl, by decide,
    execute_cancelled (cancelCfg 2) 0 [⟨1, 0, 1⟩, ⟨2, 1, 2⟩, ⟨3, 2, 3⟩] [⟨1, 3⟩] 2
      rfl (by decide) (by decide) (by decide)⟩

theorem passStepCore_flushed (st : PassState) (b : Blk) :
    flushedOf (passStepCore st b).revEvents.reverse ++
      (passStepCore st b).unflushed.map (fun x => x.height) =
    flushedOf st.revEvents.reverse ++ st.unflushed.map (fun x => x.height) ++ [b.height] := by
  unfold passStepCore
  dsimp only
  by_cases hf : batchWritePeriod ≤ st.unflushed.length + 1 <;>
    by_cases hr : iteratorReleasePeriod ≤ st.psir + 1 <;>
      simp [hf, hr, flushedOf_append, flushedOf]

/-- C9: when `Verify` or `Accept` fails inside `execute`, the function
returns the corresponding error immediately and no further batch write
happens: the deletions queued since the last flush (fewer than
`batchWritePeriod` of them, including blocks already accepted in the
current batch) stay in the batch, those blocks are still in the durable
store together with the untouched tail, and only the heights flushed
before the failure have been deleted. -/
theorem execute_error_no_flush (cfg : ExecCfg) (la : Nat) (pre : List Blk) (v : Blk)
    (post : List Blk) (t : List Ival)
    (hcan : cfg.cancelAt = none)
    (hnd : ((pre ++ v :: post).map (fun b => b.height)).Nodup)
    (hpre : ∀ b ∈ pre, CleanBlk cfg la b)
    (hvp : cfg.parseOk v = true)
    (hvh : la < v.height)
    (hfail : cfg.verifyOk v = false ∨ cfg.acceptOk v = false) :
    ∃ s err, execute cfg la (pre ++ v :: post) t = some (s, some err) ∧
      ((cfg.verifyOk v = false ∧ err = ExecErr.verifyErr v) ∨
        (cfg.verifyOk v = true ∧ err = ExecErr.acceptErr v)) ∧
      s.batch = (passStepCore (passRun la ⟨[], 0, t, []⟩ pre) v).unflushed.map
        (fun b => b.height) ∧
      s.db = (passStepCore (passRun la ⟨[], 0, t, []⟩ pre) v).unflushed ++ post ∧
      s.batch.length = (pre.length + 1) % batchWritePeriod ∧
      flushedOf s.events ++ s.batch = (pre ++ [v]).map (fun b => b.height) := by
  have hcanf : ∀ k, ctxCancelled cfg k = false := by
    intro k
    simp [ctxCancelled, hcan]
  have hag0 : Agree ⟨[], 0, t, []⟩ (pre ++ v :: post)
      { db := pre ++ v :: post, iter := pre ++ v :: post, batch := [], tree := t,
        processedSinceBatchWrite := 0, processedSinceIteratorRelease := 0,
        checks := 0, revEvents := [] } := by
    refine ⟨rfl, by simp, rfl, rfl, rfl, rfl, rfl, by simp [batchWritePeriod], ?_,
      by simpa using hnd⟩
    simp [iteratorReleasePeriod]
  obtain ⟨s2, heq, hag2, hch⟩ := execLoop_clean_prefix cfg la pre (v :: post)
    ⟨[], 0, t, []⟩ _ (post.length + 2) hag0 hpre (fun k _ _ => hcanf k)
  have hcons := execLoop_cons_eq cfg la v post s2 (post.length + 1) (hcanf _) hag2.1 hvp
  obtain ⟨hAm, hchm⟩ := execStepCore_agree (passRun la ⟨[], 0, t, []⟩ pre) v post s2 hag2
  obtain ⟨a1, a2, a3, a4, a5, a6, a7, a8, a9, a10⟩ := hAm
  obtain ⟨g1, g2, g3, g4⟩ := passRun_arith la pre ⟨[], 0, t, []⟩
    (by simp [batchWritePeriod]) (by simp [iteratorReleasePeriod])
  obtain ⟨e1, e2, e3, e4⟩ := passStep_arith la (passRun la ⟨[], 0, t, []⟩ pre) v
    (by
      rw [g1, g2]
      simp only [batchWritePeriod, iteratorReleasePeriod]
      omega)
    (by
      rw [g2]
      simp only [iteratorReleasePeriod]
      omega)
  have hlen : (passStepCore (passRun la ⟨[], 0, t, []⟩ pre) v).unflushed.length =
      (pre.length + 1) % batchWritePeriod := by
    have : (passStep la (passRun la ⟨[], 0, t, []⟩ pre) v).unflushed =
        (passStepCore (passRun la ⟨[], 0, t, []⟩ pre) v).unflushed := rfl
    rw [← this, e1, g2]
    simp only [batchWritePeriod, iteratorReleasePeriod]
    omega
  have hflcore : flushedOf (passStepCore (passRun la ⟨[], 0, t, []⟩ pre) v).revEvents.reverse ++
      (passStepCore (passRun la ⟨[], 0, t, []⟩ pre) v).unflushed.map (fun x => x.height) =
      (pre ++ [v]).map (fun x => x.height) := by
    rw [passStepCore_flushed]
    have hrunfl := passRun_flushed la pre ⟨[], 0, t, []⟩
    simp only [show (⟨[], 0, t, []⟩ : PassState).revEvents = [] from rfl,
      show (⟨[], 0, t, []⟩ : PassState).unflushed = [] from rfl,
      show flushedOf ([] : List Event).reverse = [] from rfl, List.map_nil,
      List.append_nil, List.nil_append] at hrunfl
    rw [hrunfl]
    simp
  have hfuel : (pre ++ v :: post).length + 1 = pre.length + (post.length + 2) := by
    simp
    omega
  have hbatchs : ∀ E : List Event,
      ({ execStepCore { s2 with checks := s2.checks + 1, iter := post } v with
          revEvents := E } : ExecState).batch =
        (passStepCore (passRun la ⟨[], 0, t, []⟩ pre) v).unflushed.map
          (fun b => b.height) := fun _ => a3
  have hdbs : ∀ E : List Event,
      ({ execStepCore { s2 with checks := s2.checks + 1, iter := post } v with
          revEvents := E } : ExecState).db =
        (passStepCore (passRun la ⟨[], 0, t, []⟩ pre) v).unflushed ++ post := fun _ => a2
  have hlenb : ∀ E : List Event,
      ({ execStepCore { s2 with checks := s2.checks + 1, iter := post } v with
          revEvents := E } : ExecState).batch.length =
        (pre.length + 1) % batchWritePeriod := by
    intro E
    rw [hbatchs E, List.length_map]
    exact hlen
  cases hv : cfg.verifyOk v with
  | false =>
    have hrun : execute cfg la (pre ++ v :: post) t =
        some ({ execStepCore { s2 with checks := s2.checks + 1, iter := post } v with
            revEvents := Event.verify v ::
              (execStepCore { s2 with checks := s2.checks + 1, iter := post } v).revEvents },
          some (ExecErr.verifyErr v)) := by
      unfold execute
      rw [hfuel, heq, hcons]
      dsimp only
      rw [if_neg (show ¬ v.height ≤ la by omega), hv]
      simp
    refine ⟨_, _, hrun, Or.inl ⟨rfl, rfl⟩, hbatchs _, hdbs _, hlenb _, ?_⟩
    show flushedOf (Event.verify v ::
        (execStepCore { s2 with checks := s2.checks + 1, iter := post } v).revEvents).reverse
        ++ _ = _
    rw [List.reverse_cons, flushedOf_append, hbatchs, a7]
    simp only [show flushedOf [Event.verify v] = [] from rfl, List.append_nil]
    exact hflcore
  | true =>
    have hfa : cfg.acceptOk v = false := by
      rcases hfail with h | h
      · rw [hv] at h; cases h
      · exact h
    have hrun : execute cfg la (pre ++ v :: post) t =
        some ({ execStepCore { s2 with checks := s2.checks + 1, iter := post } v with
            revEvents := Event.accept v :: Event.verify v ::
              (execStepCore { s2 with checks := s2.checks + 1, iter := post } v).revEvents },
          some (ExecErr.acceptErr v)) := by
      unfold execute
      rw [hfuel, heq, hcons]
      dsimp only
      rw [if_neg (show ¬ v.height ≤ la by omega), hv, hfa]
      simp
    refine ⟨_, _, hrun, Or.inr ⟨rfl, rfl⟩, hbatchs _, hdbs _, hlenb _, ?_⟩
    show flushedOf (Event.accept v :: Event.verify v ::
        (execStepCore { s2 with checks := s2.checks + 1, iter := post } v).revEvents).reverse
        ++ _ = _
    rw [List.reverse_cons, List.reverse_cons, List.append_assoc, flushedOf_append,
      hbatchs, a7]
    simp only [show flushedOf ([Event.verify v] ++ [Event.accept v]) = [] from rfl,
      List.append_nil]
    exact hflcore

/-- Environment in which verification fails exactly for block id 42. -/
def failCfg : ExecCfg :=
  ⟨fun _ => true, fun b => decide (b.id ≠ 42), fun _ => true, none⟩

/-- Witness for C9: the second of three stored blocks fails verification;
the error is returned with both processed blocks still pending. -/
theorem execute_error_no_flush_witness :
    (failCfg.cancelAt = none) ∧
    (failCfg.parseOk ⟨42, 1, 2⟩ = true) ∧
    ((0 : Nat) < (⟨42, 1, 2⟩ : Blk).height) ∧
    (failCfg.verifyOk ⟨42, 1, 2⟩ = false ∨ failCfg.acceptOk ⟨42, 1, 2⟩ = false) ∧
    ∃ s err, execute failCfg 0 ([⟨1, 0, 1⟩] ++ (⟨42, 1, 2⟩ : Blk) :: [⟨3, 42, 3⟩]) [⟨1, 3⟩]
        = some (s, some err) ∧
      ((failCfg.verifyOk ⟨42, 1, 2⟩ = false ∧ err = ExecErr.verifyErr ⟨42, 1, 2⟩) ∨
        (failCfg.verifyOk ⟨42, 1, 2⟩ = true ∧ err = ExecErr.acceptErr ⟨42, 1, 2⟩)) ∧
      s.batch = (passStepCore (passRun 0 ⟨[], 0, [⟨1, 3⟩], []⟩ [⟨1, 0, 1⟩])
          ⟨42, 1, 2⟩).unflushed.map (fun b => b.height) ∧
      s.db = (passStepCore (passRun 0 ⟨[], 0, [⟨1, 3⟩], []⟩ [⟨1, 0, 1⟩])
          ⟨42, 1, 2⟩).unflushed ++ [⟨3, 42, 3⟩] ∧
      s.batch.length = ([(⟨1, 0, 1⟩ : Blk)].length + 1) % batchWritePeriod ∧
      flushedOf s.events ++ s.batch =
        ([(⟨1, 0, 1⟩ : Blk)] ++ [(⟨42, 1, 2⟩ : Blk)]).map (fun b => b.height) :=
  ⟨rfl, by decide, by decide, by decide,
    execute_error_no_flush failCfg 0 [⟨1, 0, 1⟩] ⟨42, 1, 2⟩ [⟨3, 42, 3⟩] [⟨1, 3⟩]
      rfl (by decide) (by decide) (by decide) (by decide) (by decide)⟩

/-! ### Batching and iterator-release cadence -/

theorem countP_reverse (p : Event → Bool) (l : List Event) :
    l.reverse.countP p = l.countP p := by
  rw [List.countP_eq_length_filter, List.countP_eq_length_filter, List.filter_reverse,
    List.length_reverse]

theorem count_release_flush_cons (hs : List Nat) (l : List Event) :
    (Event.flush hs :: l).count Event.release = l.count Event.release := by
  simp [List.count_cons]

theorem countP_flush_cons (hs : List Nat) (l : List Event) :
    (Event.flush hs :: l).countP isFlush = l.countP isFlush + 1 := by
  simp [List.countP_cons, isFlush]

/-- `passStep` is `passStepCore` plus the Verify/Accept events prepended
for live blocks. -/
theorem passStep_eq (la : Nat) (st : PassState) (b : Blk) :
    passStep la st b =
      { passStepCore st b with revEvents :=
          (if b.height ≤ la then [] else [Event.accept b, Event.verify b]) ++
            (passStepCore st b).revEvents } := by
  unfold passStep
  by_cases hh : b.height ≤ la <;> simp [hh]

/-- C5: in a clean uncancelled run, the batch is written at every
`batchWritePeriod`-th (64th) processed entry plus once finally for a
partial batch, the iterator is released at every
`iteratorReleasePeriod`-th (1024th) processed entry, and the batch writes
delete each stored height exactly once while Verify/Accept visit each
live block exactly once in store order — no block is skipped or
reprocessed across a release.  For 1025 processed blocks there is exactly
one release, 17 batch writes, and the trace splits at the release with
exactly the first 1024 heights durably deleted before it and the
remaining height after it. -/
theorem execute_batching (cfg : ExecCfg) (la : Nat) (blks : List Blk) (t : List Ival)
    (hcan : cfg.cancelAt = none)
    (hnd : (blks.map (fun b => b.height)).Nodup)
    (hclean : ∀ b ∈ blks, CleanBlk cfg la b) :
    ∃ s, execute cfg la blks t = some (s, none) ∧
      s.events.count Event.release = blks.length / iteratorReleasePeriod ∧
      s.events.countP isFlush =
        blks.length / batchWritePeriod +
          (if blks.length % batchWritePeriod = 0 then 0 else 1) ∧
      flushedOf s.events = blks.map (fun b => b.height) ∧
      vaTrace s.events = blks.flatMap
        (fun b => if b.height ≤ la then [] else [Event.verify b, Event.accept b]) ∧
      (blks.length = iteratorReleasePeriod + 1 →
        s.events.count Event.release = 1 ∧
        s.events.countP isFlush = 17 ∧
        ∃ A B, s.events = A ++ Event.release :: B ∧
          A.count Event.release = 0 ∧
          flushedOf A = (blks.take iteratorReleasePeriod).map (fun b => b.height) ∧
          flushedOf B = (blks.drop iteratorReleasePeriod).map (fun b => b.height)) := by
  have hcanf : ∀ k, ctxCancelled cfg k = false := by
    intro k
    simp [ctxCancelled, hcan]
  have hmaster := execute_clean_run cfg la blks t hnd hclean (fun k _ => hcanf k)
  simp only [hcanf, Bool.false_eq_true, if_false] at hmaster
  have harith := passRun_arith la blks ⟨[], 0, t, []⟩ (by simp [batchWritePeriod])
    (by simp [iteratorReleasePeriod])
  simp only [show (⟨[], 0, t, []⟩ : PassState).psir = 0 from rfl,
    show (⟨[], 0, t, []⟩ : PassState).unflushed = [] from rfl,
    show (⟨[], 0, t, []⟩ : PassState).revEvents = [] from rfl,
    List.length_nil, List.count_nil, List.countP_nil, Nat.zero_add, Nat.zero_mod]
    at harith
  obtain ⟨hu0, -, hrel0, hflc0⟩ := harith
  have hu : (finalPass la t blks).unflushed.length = blks.length % batchWritePeriod := hu0
  have hrel : (finalPass la t blks).revEvents.count Event.release =
      blks.length / iteratorReleasePeriod := hrel0
  have hflc : (finalPass la t blks).revEvents.countP isFlush =
      blks.length / batchWritePeriod := hflc0
  have hcntR : (if (finalPass la t blks).unflushed.length = 0
      then (finalPass la t blks).revEvents
      else Event.flush ((finalPass la t blks).unflushed.map (fun x => x.height))
        :: (finalPass la t blks).revEvents).count Event.release =
      blks.length / iteratorReleasePeriod := by
    by_cases h0 : (finalPass la t blks).unflushed.length = 0
    · rw [if_pos h0]
      exact hrel
    · rw [if_neg h0, count_release_flush_cons]
      exact hrel
  have hcntF : (if (finalPass la t blks).unflushed.length = 0
      then (finalPass la t blks).revEvents
      else Event.flush ((finalPass la t blks).unflushed.map (fun x => x.height))
        :: (finalPass la t blks).revEvents).countP isFlush =
      blks.length / batchWritePeriod +
        (if blks.length % batchWritePeriod = 0 then 0 else 1) := by
    by_cases h0 : (finalPass la t blks).unflushed.length = 0
    · have hz : blks.length % batchWritePeriod = 0 := by
        rw [← hu]
        exact h0
      rw [if_pos h0, if_pos hz, Nat.add_zero]
      exact hflc
    · have hz : ¬ blks.length % batchWritePeriod = 0 := by
        rw [← hu]
        exact h0
      rw [if_neg h0, countP_flush_cons, if_neg hz, hflc]
  refine ⟨_, hmaster, ?_, ?_, finalEvents_flushed la t blks, finalEvents_va la t blks, ?_⟩
  · simp only [ExecState.events, List.count_reverse]
    exact hcntR
  · simp only [ExecState.events]
    rw [countP_reverse]
    exact hcntF
  · intro hlen
    have hlen' : blks.length = 1025 := by simpa [iteratorReleasePeriod] using hlen
    refine ⟨?_, ?_, ?_⟩
    · simp only [ExecState.events, List.count_reverse]
      rw [hcntR, hlen']
      decide
    · simp only [ExecState.events]
      rw [countP_reverse, hcntF, hlen']
      decide
    · obtain ⟨d, hd⟩ : ∃ d, blks.drop 1024 = [d] := by
        have h1 : (blks.drop 1024).length = 1 := by
          rw [List.length_drop, hlen']
        exact List.length_eq_one.1 h1
      obtain ⟨c, r, hcr⟩ : ∃ c r, blks.drop 1023 = c :: r := by
        have h2 : (blks.drop 1023).length = 2 := by
          rw [List.length_drop, hlen']
        cases hx : blks.drop 1023 with
        | nil => rw [hx] at h2; simp at h2
        | cons c r => exact ⟨c, r, rfl⟩
      have hr : r = [d] := by
        have h2 : (blks.drop 1023).drop 1 = blks.drop 1024 := by
          rw [List.drop_drop]
        rw [hcr] at h2
        simpa [hd] using h2
      subst hr
      have hsplit : blks = blks.take 1023 ++ c :: [d] := by
        conv_lhs => rw [← List.take_append_drop 1023 blks]
        rw [hcr]
      have htake1023 : (blks.take 1023).length = 1023 := by
        rw [List.length_take, hlen']
        omega
      have htake1024 : blks.take 1024 = blks.take 1023 ++ [c] := by
        conv_lhs => rw [hsplit]
        rw [List.take_append_eq_append_take, htake1023,
          List.take_of_length_le (by rw [htake1023]; omega)]
        rfl
      have hFP : finalPass la t blks =
          passStep la (passStep la (passRun la ⟨[], 0, t, []⟩ (blks.take 1023)) c) d := by
        show passRun la ⟨[], 0, t, []⟩ blks =
          passStep la (passStep la (passRun la ⟨[], 0, t, []⟩ (blks.take 1023)) c) d
        conv_lhs => rw [hsplit]
        simp only [passRun, List.foldl_append]
        rfl
      have h1 := passRun_arith la (blks.take 1023) ⟨[], 0, t, []⟩
        (by simp [batchWritePeriod]) (by simp [iteratorReleasePeriod])
      simp only [show (⟨[], 0, t, []⟩ : PassState).psir = 0 from rfl,
        show (⟨[], 0, t, []⟩ : PassState).unflushed = [] from rfl,
        show (⟨[], 0, t, []⟩ : PassState).revEvents = [] from rfl,
        List.length_nil, List.count_nil, List.countP_nil, Nat.zero_add, Nat.zero_mod,
        htake1023] at h1
      obtain ⟨h1u, h1p, h1r, -⟩ := h1
      rw [(by decide : (1023 : Nat) % batchWritePeriod = 63)] at h1u
      rw [(by decide : (1023 : Nat) % iteratorReleasePeriod = 1023)] at h1p
      rw [(by decide : (1023 : Nat) / iteratorReleasePeriod = 0)] at h1r
      have hfl1 : flushedOf (passRun la ⟨[], 0, t, []⟩ (blks.take 1023)).revEvents.reverse
          ++ (passRun la ⟨[], 0, t, []⟩ (blks.take 1023)).unflushed.map
            (fun x => x.height) =
          (blks.take 1023).map (fun x => x.height) := by
        have h0 := passRun_flushed la (blks.take 1023) ⟨[], 0, t, []⟩
        simp only [show (⟨[], 0, t, []⟩ : PassState).revEvents = [] from rfl,
          show (⟨[], 0, t, []⟩ : PassState).unflushed = [] from rfl, List.reverse_nil,
          List.map_nil, List.append_nil,
          show flushedOf ([] : List Event) = [] from rfl, List.nil_append] at h0
        exact h0
      set st1 := passRun la ⟨[], 0, t, []⟩ (blks.take 1023) with hst1
      have hst2 : passStep la st1 c =
          ⟨[], 0, treeRemove st1.tree c.height,
            (if c.height ≤ la then [] else [Event.accept c, Event.verify c]) ++
              Event.release ::
                Event.flush ((st1.unflushed ++ [c]).map (fun x => x.height)) ::
                st1.revEvents⟩ := by
        rw [passStep_eq, passStepCore_eq_release st1 c (by rw [h1u]; decide)
          (by rw [h1p]; decide)]
      have hb1 : (passStep la st1 c).unflushed.length + 1 < batchWritePeriod := by
        rw [hst2]
        simp [batchWritePeriod]
      have hb2 : (passStep la st1 c).psir + 1 < iteratorReleasePeriod := by
        rw [hst2]
        simp [iteratorReleasePeriod]
      have hst3 : passStep la (passStep la st1 c) d =
          ⟨[d], 1, treeRemove (treeRemove st1.tree c.height) d.height,
            (if d.height ≤ la then [] else [Event.accept d, Event.verify d]) ++
              ((if c.height ≤ la then [] else [Event.accept c, Event.verify c]) ++
                Event.release ::
                  Event.flush ((st1.unflushed ++ [c]).map (fun x => x.height)) ::
                  st1.revEvents)⟩ := by
        rw [passStep_eq, passStepCore_eq_basic (passStep la st1 c) d hb1 hb2, hst2]
        rfl
      have hFPu : (finalPass la t blks).unflushed = [d] := by
        rw [hFP, hst3]
      have hFPrev : (finalPass la t blks).revEvents =
          (if d.height ≤ la then [] else [Event.accept d, Event.verify d]) ++
            ((if c.height ≤ la then [] else [Event.accept c, Event.verify c]) ++
              Event.release ::
                Event.flush ((st1.unflushed ++ [c]).map (fun x => x.height)) ::
                st1.revEvents) := by
        rw [hFP, hst3]
      refine ⟨st1.revEvents.reverse ++
          [Event.flush ((st1.unflushed ++ [c]).map (fun x => x.height))],
        (if c.height ≤ la then [] else [Event.accept c, Event.verify c]).reverse ++
          ((if d.height ≤ la then [] else [Event.accept d, Event.verify d]).reverse ++
            [Event.flush [d.height]]), ?_, ?_, ?_, ?_⟩
      · simp only [ExecState.events]
        rw [hFPu, hFPrev]
        simp [List.reverse_append, List.append_assoc]
      · simp [List.count_append, List.count_reverse, h1r, List.count_cons]
      · simp only [iteratorReleasePeriod]
        rw [htake1024, flushedOf_append,
          (by simp [flushedOf] :
            flushedOf [Event.flush ((st1.unflushed ++ [c]).map (fun x => x.height))] =
              (st1.unflushed ++ [c]).map (fun x => x.height))]
        simp only [List.map_append]
        rw [← List.append_assoc, hfl1]
      · simp only [iteratorReleasePeriod]
        rw [hd]
        by_cases hcla : c.height ≤ la <;> by_cases hdla : d.height ≤ la <;>
          simp [hcla, hdla, flushedOf]

/-- A 1025-block chain at heights 1..1025. -/
def bigBlks : List Blk := (List.range' 1 1025).map (fun h => ⟨h, h - 1, h⟩)

/-- Witness for C5: the 1025-block run from the scenario. -/
theorem execute_batching_witness :
    allCfg.cancelAt = none ∧
    (bigBlks.map (fun b => b.height)).Nodup ∧
    (∀ b ∈ bigBlks, CleanBlk allCfg 0 b) ∧
    bigBlks.length = iteratorReleasePeriod + 1 ∧
    (∃ s, execute allCfg 0 bigBlks [⟨1, 1025⟩] = some (s, none) ∧
      s.events.count Event.release = bigBlks.length / iteratorReleasePeriod ∧
      s.events.countP isFlush =
        bigBlks.length / batchWritePeriod +
          (if bigBlks.length % batchWritePeriod = 0 then 0 else 1) ∧
      flushedOf s.events = bigBlks.map (fun b => b.height) ∧
      vaTrace s.events = bigBlks.flatMap
        (fun b => if b.height ≤ 0 then [] else [Event.verify b, Event.accept b]) ∧
      (bigBlks.length = iteratorReleasePeriod + 1 →
        s.events.count Event.release = 1 ∧
        s.events.countP isFlush = 17 ∧
        ∃ A B, s.events = A ++ Event.release :: B ∧
          A.count Event.release = 0 ∧
          flushedOf A = (bigBlks.take iteratorReleasePeriod).map (fun b => b.height) ∧
          flushedOf B = (bigBlks.drop iteratorReleasePeriod).map (fun b => b.height))) := by
  have hnd : (bigBlks.map (fun b => b.height)).Nodup := by
    have h1 : bigBlks.map (fun b => b.height) = List.range' 1 1025 := by
      rw [bigBlks, List.map_map]
      show List.map (fun h => h) (List.range' 1 1025) = List.range' 1 1025
      simp
    rw [h1]
    exact List.nodup_range' 1 1025 1 (by decide)
  exact ⟨rfl, hnd, fun b _ => ⟨rfl, fun _ => ⟨rfl, rfl⟩⟩,
    by simp [bigBlks, iteratorReleasePeriod],
    execute_batching allCfg 0 bigBlks [⟨1, 1025⟩] rfl hnd
      (fun b _ => ⟨rfl, fun _ => ⟨rfl, rfl⟩⟩)⟩

/-! ### The Acceptor decorator (`acceptor.go`) -/

/-- The observable actions of one `blockAcceptor.Accept` call. -/
inductive AccEvent where
  | incCounter
  | hookAccept (id : BlkID)
  | innerAccept (id : BlkID)
deriving DecidableEq, Repr

/-- `blockAcceptor.Accept` from `acceptor.go`: increment the
`numAccepted` counter, call the externally supplied accepted-block hook
(`ctx.BlockAcceptor.Accept` with the block's ID and bytes), propagate its
error without calling the wrapped block's `Accept`, and otherwise
delegate to the wrapped `Accept`.  `hookErr`/`innerErr` are the outcomes
of the two calls (`none` means success); the returned trace lists the
actions in order, and the returned `Option` is the call's error result. -/
def blockAcceptorAccept (numAccepted : Nat) (hookErr : Option Nat) (innerErr : Option Nat)
    (b : Blk) : Nat × List AccEvent × Option Nat :=
  let numAccepted2 := numAccepted + 1
  let evs := [AccEvent.incCounter, AccEvent.hookAccept b.id]
  match hookErr with
  | some e => (numAccepted2, evs, some e)
  | none => (numAccepted2, evs ++ [AccEvent.innerAccept b.id], innerErr)

/-- C8: `blockAcceptor.Accept` invokes the accepted-block hook before the
wrapped block's own `Accept`; if the hook fails the wrapped `Accept` is
never called and the hook's error is returned, and the wrapped `Accept`
runs exactly when the hook succeeds (its outcome becoming the result). -/
theorem blockAcceptorAccept_hook_first (numAccepted : Nat) (hookErr innerErr : Option Nat)
    (b : Blk) :
    (∃ i j, i < j ∧ (blockAcceptorAccept numAccepted hookErr innerErr b).2.1.get? i =
        some (AccEvent.hookAccept b.id) ∧
      ((blockAcceptorAccept numAccepted hookErr innerErr b).2.1.get? j ≠
          some (AccEvent.innerAccept b.id) →
        AccEvent.innerAccept b.id ∉ (blockAcceptorAccept numAccepted hookErr innerErr b).2.1)) ∧
    (∀ e, hookErr = some e →
      AccEvent.innerAccept b.id ∉ (blockAcceptorAccept numAccepted hookErr innerErr b).2.1 ∧
      (blockAcceptorAccept numAccepted hookErr innerErr b).2.2 = some e) ∧
    (hookErr = none →
      (blockAcceptorAccept numAccepted hookErr innerErr b).2.1.count
          (AccEvent.innerAccept b.id) = 1 ∧
      (blockAcceptorAccept numAccepted hookErr innerErr b).2.1 =
        [AccEvent.incCounter, AccEvent.hookAccept b.id, AccEvent.innerAccept b.id] ∧
      (blockAcceptorAccept numAccepted hookErr innerErr b).2.2 = innerErr) := by
  cases hookErr with
  | some e =>
    refine ⟨⟨1, 2, by omega, rfl, fun _ => ?_⟩, ?_, ?_⟩
    · simp [blockAcceptorAccept]
    · intro e2 he
      cases he
      exact ⟨by simp [blockAcceptorAccept], rfl⟩
    · intro h
      cases h
  | none =>
    refine ⟨⟨1, 2, by omega, rfl, fun hj => absurd rfl hj⟩, ?_, ?_⟩
    · intro e2 he
      cases he
    · intro _
      refine ⟨?_, rfl, rfl⟩
      simp [blockAcceptorAccept, List.count_cons]

/-- C10: the `numAccepted` counter is incremented unconditionally, before
the hook runs, exactly once per `Accept` call — it counts attempts, not
completed acceptances. -/
theorem blockAcceptorAccept_counts_attempts (numAccepted : Nat)
    (hookErr innerErr : Option Nat) (b : Blk) :
    (blockAcceptorAccept numAccepted hookErr innerErr b).1 = numAccepted + 1 ∧
    (blockAcceptorAccept numAccepted hookErr innerErr b).2.1.get? 0 =
      some AccEvent.incCounter := by
  cases hookErr <;> exact ⟨rfl, rfl⟩

end Bootstrap
